import Mathlib

/-!
Verification development for the command-execution subsystem of
octotools (file octotools/models/executor.py).

Strings are modelled as lists of characters.  Python regular-expression
behaviour (leftmost match, lazy and greedy backtracking) is translated
into explicit recursive functions; each definition carries a comment
pointing to the Python construct it embeds.  Whitespace is the ASCII
whitespace set recognised by Python, which is what all inputs in scope
use.
-/

namespace Executor

abbrev Str := List Char

/-- ASCII whitespace, as matched by Python str.strip and the regex
class backslash-s on the ASCII range. -/
def isSpace (c : Char) : Bool :=
  c = ' ' || c = '\t' || c = '\n' || c = '\r' || c = '\x0b' || c = '\x0c'

/-- Python str.strip(): remove leading and trailing whitespace. -/
def strip (s : Str) : Str :=
  ((s.dropWhile isSpace).reverse.dropWhile isSpace).reverse

/-- Match a literal string at the start of the input, returning the
remainder on success (the building block for literal regex parts). -/
def lit : Str → Str → Option Str
  | [], s => some s
  | _ :: _, [] => none
  | p :: ps, c :: cs => if p = c then lit ps cs else none

/-- Does the input start with the given literal? -/
def startsWith (p s : Str) : Bool := (lit p s).isSome

/-- Does the literal occur anywhere in the input? -/
def hasSub (n : Str) : Str → Bool
  | [] => (lit n []).isSome
  | c :: t => startsWith n (c :: t) || hasSub n t

/-- Index of the first occurrence of the literal in the input
(Python re.search on a plain literal). -/
def findSub (n : Str) : Str → Option Nat
  | [] => if startsWith n [] then some 0 else none
  | c :: t => if startsWith n (c :: t) then some 0 else (findSub n t).map (· + 1)

/-- Python str.rstrip with the backtick character set. -/
def rstripBackticks (s : Str) : Str :=
  (s.reverse.dropWhile (fun c => c = '`')).reverse

def fenceTag : Str := "```python".data

/-- normalize_code (executor.py lines 146-148):
re.sub removing a leading fence marker "```python" plus following
whitespace, then rstrip of backticks, then strip. -/
def normalize_code (code : Str) : Str :=
  let c1 := match lit fenceTag code with
    | some rest => rest.dropWhile isSpace
    | none => code
  strip (rstripBackticks c1)

/-! ## Response parsing (extract_explanation_and_command, lines 145-177) -/

/-- The structured record produced by the response-format contract
(octotools/models/formatters.py ToolCommand). -/
structure ToolCommand where
  analysis : Str
  explanation : Str
  command : Str

def fbAnalysis : Str := "No analysis found.".data
def fbExplanation : Str := "No explanation found.".data
def fbCommand : Str := "No command found.".data
def mkAnalysis : Str := "Analysis:".data
def mkCmdExp : Str := "Command Explanation".data
def mkCmdExpColon : Str := "Command Explanation:".data
def mkGenCmd : Str := "Generated Command".data
def mkGenCmdColon : Str := "Generated Command:".data
def fenceOpen : Str := "```python\n".data
def fenceClose : Str := "```".data

/-- Free-text extraction of the analysis section (line 163-165):
re.search of "Analysis:" lazily up to "Command Explanation", DOTALL.
The leftmost-match / lazy-group semantics reduce to: first occurrence
of the opening marker, then first occurrence of the terminator after
it; if either is missing the fallback string is used. -/
def analysisOf (s : Str) : Str :=
  match findSub mkAnalysis s with
  | none => fbAnalysis
  | some i =>
    let after := s.drop (i + mkAnalysis.length)
    match findSub mkCmdExp after with
    | none => fbAnalysis
    | some j => strip (after.take j)

/-- Free-text extraction of the explanation section (lines 167-169). -/
def explanationOf (s : Str) : Str :=
  match findSub mkCmdExpColon s with
  | none => fbExplanation
  | some i =>
    let after := s.drop (i + mkCmdExpColon.length)
    match findSub mkGenCmd after with
    | none => fbExplanation
    | some j => strip (after.take j)

/-- The fenced-code part of the command regex (line 171):
lazy scan for the first "```python" + newline that is followed by a
closing "```", returning the lazily-matched group between them. -/
def findFenced : Str → Option Str
  | [] => none
  | c :: t =>
    if startsWith fenceOpen (c :: t) then
      match findSub fenceClose ((c :: t).drop fenceOpen.length) with
      | some j => some (((c :: t).drop fenceOpen.length).take j)
      | none => findFenced t
    else findFenced t

/-- Free-text extraction of the command section (lines 171-173). -/
def commandOf (s : Str) : Str :=
  match findSub mkGenCmdColon s with
  | none => fbCommand
  | some i =>
    match findFenced (s.drop (i + mkGenCmdColon.length)) with
    | none => fbCommand
    | some body => strip body

/-- The two response shapes reaching the isinstance dispatch of
extract_explanation_and_command: a structured ToolCommand record, or
free text (a string that did not decode into a ToolCommand; the
json.loads attempt of lines 150-156 is external library behaviour and
is modelled by which constructor the caller supplies). -/
inductive PyResponse where
  | structured (tc : ToolCommand)
  | freeText (s : Str)

/-- extract_explanation_and_command (lines 145-177): the structured
branch strips the three fields; the free-text branch extracts the
three sections by regex; both branches then pass the command through
normalize_code (line 175). -/
def extract_explanation_and_command : PyResponse → Str × Str × Str
  | .structured tc =>
    (strip tc.analysis, strip tc.explanation, normalize_code (strip tc.command))
  | .freeText s =>
    (analysisOf s, explanationOf s, normalize_code (commandOf s))

/-! ## Command splitting (split_commands, lines 192-196)

The regex is
  .*?execution\s*=\s*tool\.execute\([^\n]*\)\s*(?:\n|$)
with re.DOTALL and re.findall.  The functions below implement its
exact backtracking semantics: matchCore matches everything after the
lazy prefix at the current position; findMatchEnd implements the lazy
prefix (earliest position at which matchCore succeeds) and returns the
length of the whole match; splitLoop iterates like findall. -/

def eKey : Str := "execution".data
def toolCallKey : Str := "tool.execute(".data

/-- Index of the last newline in the input, if any. -/
def findLastNl : Str → Option Nat
  | [] => none
  | c :: t =>
    match findLastNl t with
    | some j => some (j + 1)
    | none => if c = '\n' then some 0 else none

/-- The trailing part backslash-s* (newline or end): greedily consume
whitespace, then backtrack so the match ends either at the end of the
input or just after the last newline of the whitespace run. -/
def tailWsEnd (t : Str) : Option Nat :=
  if (t.takeWhile isSpace).length = t.length then some (t.takeWhile isSpace).length
  else match findLastNl (t.takeWhile isSpace) with
    | some j => some (j + 1)
    | none => none

/-- The greedy part close-paren-class: `[^\n]*` followed by a literal
close parenthesis and then the trailing whitespace pattern.  Greedy
matching prefers the rightmost close parenthesis on the current line
for which the trailing pattern succeeds; the function returns the
number of characters consumed from the line-plus-rest. -/
def lastParenMatch : Str → Str → Option Nat
  | [], _ => none
  | c :: cs, rest =>
    match lastParenMatch cs rest with
    | some m => some (m + 1)
    | none =>
      if c = ')' then (tailWsEnd (cs ++ rest)).map (fun m => 1 + m)
      else none

/-- Match, at the current position, the core of the splitter regex
(everything after the lazy prefix), returning the number of characters
consumed. -/
def matchCore (s : Str) : Option Nat :=
  match lit eKey s with
  | none => none
  | some s1 =>
    match s1.dropWhile isSpace with
    | [] => none
    | c :: s3 =>
      if c = '=' then
        match lit toolCallKey (s3.dropWhile isSpace) with
        | none => none
        | some s5 =>
          match lastParenMatch (s5.takeWhile (fun d => !(d = '\n')))
              (s5.drop (s5.takeWhile (fun d => !(d = '\n'))).length) with
          | none => none
          | some m => some (s.length - s5.length + m)
      else none

/-- The lazy DOTALL prefix .*? combined with findall scanning: the
overall match at the current position ends at the earliest position
where the core matches; the returned number is the length of the whole
match including the lazy prefix. -/
def findMatchEnd : Str → Option Nat
  | [] => none
  | c :: t =>
    match matchCore (c :: t) with
    | some m => some m
    | none => (findMatchEnd t).map (· + 1)

/-- re.findall iteration: cut out the match, continue on the rest. -/
def splitLoop (s : Str) : List Str :=
  match h : findMatchEnd s with
  | none => []
  | some e => s.take e :: splitLoop (s.drop e)
termination_by s.length
decreasing_by
  have hlpm : ∀ (line rest : Str) (m : Nat),
      lastParenMatch line rest = some m → 0 < m := by
    intro line
    induction line with
    | nil => intro rest m hm; simp [lastParenMatch] at hm
    | cons c cs ih =>
      intro rest m hm
      simp only [lastParenMatch] at hm
      split at hm
      · cases Option.some.inj hm; omega
      · split at hm
        · rcases Option.map_eq_some'.1 hm with ⟨k, _, hk⟩; omega
        · exact absurd hm (by simp)
  have hmc : ∀ (u : Str) (m : Nat), matchCore u = some m → 0 < m := by
    intro u m hm
    unfold matchCore at hm
    split at hm
    · exact absurd hm (by simp)
    · split at hm
      · exact absurd hm (by simp)
      · split at hm
        · split at hm
          · exact absurd hm (by simp)
          · split at hm
            · exact absurd hm (by simp)
            · rename_i k hk
              cases Option.some.inj hm
              have := hlpm _ _ _ hk
              omega
        · exact absurd hm (by simp)
  have hfme : ∀ (u : Str) (k : Nat), findMatchEnd u = some k → 0 < k ∧ u ≠ [] := by
    intro u
    induction u with
    | nil => intro k hk; simp [findMatchEnd] at hk
    | cons c t ih =>
      intro k hk
      refine ⟨?_, by simp⟩
      simp only [findMatchEnd] at hk
      split at hk
      · rename_i m hm
        cases Option.some.inj hk
        exact hmc _ _ hm
      · rcases Option.map_eq_some'.1 hk with ⟨j, _, hj⟩; omega
  rcases hfme s e h with ⟨h1, h2⟩
  rw [List.length_drop]
  cases s with
  | nil => exact absurd rfl h2
  | cons a t => simp only [List.length_cons]; omega

/-- Fuel-based version of the findall iteration (identical behaviour
whenever the fuel is at least the input length; the fuel only makes
the recursion structural). -/
def splitLoopF : Nat → Str → List Str
  | 0, _ => []
  | fuel + 1, s =>
    match findMatchEnd s with
    | none => []
    | some e => s.take e :: splitLoopF fuel (s.drop e)

/-- split_commands (lines 192-196): findall, then strip each block and
keep the non-empty ones. -/
def split_commands (command : Str) : List Str :=
  ((splitLoopF command.length command).map strip).filter (fun b => !b.isEmpty)

/-! ## Runtime model (execute_with_timeout and execute_tool_command,
lines 198-256)

Python values flowing through the coordinator are modelled by PyVal:
the None value, strings (real results, timeout sentinels and
placeholder messages are all strings), the tool instance, and opaque
other objects.  The effect of the Python exec primitive on one block
is modelled by a function from the block text and the local scope to
an outcome; the effects of dynamic import, instantiation and output
directory configuration are modelled by an Except-valued setup oracle.
The process-wide SIGALRM timer is modelled as a natural number state
(0 = disarmed) threaded through the run. -/

inductive PyVal where
  | pynone
  | pystr (s : Str)
  | toolObj
  | obj (n : Nat)
deriving DecidableEq

abbrev Scope := List (Str × PyVal)

def lookupScope : Scope → Str → Option PyVal
  | [], _ => none
  | (y, v) :: t, x => if y = x then some v else lookupScope t x

/-- Outcome of exec(block, globals(), local_context): normal
completion with the final local scope, a TimeoutError raised by the
alarm handler, or any other exception with its message. -/
inductive ExecOutcome where
  | done (ctx : Scope)
  | timedOut
  | raised (msg : Str)
deriving DecidableEq

/-- The Python exec primitive as a semantic parameter: given the block
text and the initial local scope it produces an outcome.  Binding
statements executed by exec write only into the passed local scope,
which is what this functional modelling captures. -/
abbrev Interp := Str → Scope → ExecOutcome

def timeoutMsg (mt : Nat) : Str :=
  "Execution timed out after ".data ++ Nat.toDigits 10 mt ++ " seconds".data

def noExecMsg (b : Str) : Str :=
  "No execution captured from block: ".data ++ b

def errAgg (e : Str) : Str :=
  "Error in execute_tool_command: ".data ++ e

/-- The fresh local context created for every block (line 243):
local_context = a dict binding only the name tool. -/
def freshScope : Scope := [("tool".data, PyVal.toolObj)]

def executionName : Str := "execution".data

/-- execute_with_timeout (lines 198-212).  The incoming alarm state is
overwritten by signal.alarm(max_time); on the success path the value
bound to the name execution is read from the local context (None when
unbound, matching dict.get); the alarm is reset to 0 by line 207 there,
and by the finally clause of line 211-212 on the timeout and exception
paths.  The result pairs the returned-or-raised value with the alarm
state after the call. -/
def execute_with_timeout (mt : Nat) (interp : Interp) (block : Str)
    (ctx : Scope) (_incomingAlarm : Nat) : Except Str PyVal × Nat :=
  match interp block ctx with
  | .done ctx2 =>
    match lookupScope ctx2 executionName with
    | some v => (.ok v, 0)
    | none => (.ok .pynone, 0)
  | .timedOut => (.ok (.pystr (timeoutMsg mt)), 0)
  | .raised e => (.error e, 0)

/-- The per-block entry appended to the result list (lines 248-251):
the captured value when it is not None, otherwise the descriptive
placeholder naming the block. -/
def blockEntry (v : PyVal) (block : Str) : PyVal :=
  match v with
  | .pynone => .pystr (noExecMsg block)
  | v => v

/-- The loop of lines 241-251: run each block with a fresh local
context, append its entry; a raised (non-timeout) failure aborts the
loop and propagates. -/
def runBlocks (mt : Nat) (interp : Interp) :
    List Str → Nat → Except Str (List PyVal) × Nat
  | [], a => (.ok [], a)
  | b :: bs, a =>
    match execute_with_timeout mt interp b freshScope a with
    | (.error e, a1) => (.error e, a1)
    | (.ok v, a1) =>
      match runBlocks mt interp bs a1 with
      | (.ok l, a2) => (.ok (blockEntry v b :: l), a2)
      | (.error e, a2) => (.error e, a2)

/-- execute_tool_command (lines 179-256).  setup models the try-block
prefix: dynamic import, class lookup, instantiation and
set_custom_output_dir (lines 217-235); any exception from it or from
the block loop is caught by the outer except (line 255) and turned
into the single aggregate error string. -/
def execute_tool_command (mt : Nat) (setup : Except Str Unit)
    (interp : Interp) (command : Str) (a : Nat) :
    Sum (List PyVal) Str × Nat :=
  match setup with
  | .error e => (.inr (errAgg e), a)
  | .ok _ =>
    match runBlocks mt interp (split_commands command) a with
    | (.ok l, a2) => (.inl l, a2)
    | (.error e, a2) => (.inr (errAgg e), a2)

/-! ## The exec primitive on the command grammar

The commands this subsystem consumes follow the narrow grammar of the
prompt contract: binding statements name = expr and invocation
statements execution = tool.execute(args).  The model below gives exec
semantics on that grammar: expressions are literals, variable
references, or a call of the execute attribute of a bound object; the
behaviour of the tool method itself is a semantic parameter, whose
hang outcome stands for running past the deadline so that the alarm
raises TimeoutError inside the call. -/

inductive ToolOutcome where
  | ret (v : PyVal)
  | raise (e : Str)
  | hang

inductive PyExpr where
  | lit (v : PyVal)
  | var (x : Str)
  | callExecute (recv : Str) (arg : PyExpr)

inductive PyStmt where
  | assign (x : Str) (e : PyExpr)

inductive EvalRes where
  | val (v : PyVal)
  | exn (e : Str)
  | hung

def evalExpr (toolSem : PyVal → ToolOutcome) (ctx : Scope) : PyExpr → EvalRes
  | .lit v => .val v
  | .var x =>
    match lookupScope ctx x with
    | some v => .val v
    | none => .exn ("NameError: ".data ++ x)
  | .callExecute recv arg =>
    match lookupScope ctx recv with
    | none => .exn ("NameError: ".data ++ recv)
    | some .toolObj =>
      match evalExpr toolSem ctx arg with
      | .val a =>
        match toolSem a with
        | .ret v => .val v
        | .raise e => .exn e
        | .hang => .hung
      | r => r
    | some _ => .exn "AttributeError: execute".data

/-- Running the statements of one block over the local scope, exactly
as exec does for this grammar: assignments write into the local scope
(shadowing earlier bindings). -/
def runStmts (toolSem : PyVal → ToolOutcome) :
    List PyStmt → Scope → ExecOutcome
  | [], ctx => .done ctx
  | .assign x e :: rest, ctx =>
    match evalExpr toolSem ctx e with
    | .val v => runStmts toolSem rest ((x, v) :: ctx)
    | .exn m => .raised m
    | .hung => .timedOut

def assignedNames : List PyStmt → List Str
  | [] => []
  | .assign x _ :: rest => x :: assignedNames rest

/-! ## Line-structured command texts

The splitter claims quantify over normalized command texts made of
lines: preparation lines and invocation lines.  A command is modelled
as a list of lines; lineOk states the well-formedness the claims
presuppose (lines are newline-free and non-blank; preparation lines do
not contain the keyword execution; the invocation line is the pattern
execution ws = ws tool.execute( args ) with the argument list confined
to the line). -/

inductive CmdLine where
  | prep (s : Str)
  | inv (ws1 ws2 args : Str)

def renderLine : CmdLine → Str
  | .prep s => s
  | .inv ws1 ws2 args =>
    eKey ++ ws1 ++ '=' :: (ws2 ++ toolCallKey ++ args ++ [')'])

/-- Join lines with newline separators. -/
def joinLines : List Str → Str
  | [] => []
  | [l] => l
  | l :: t => l ++ '\n' :: joinLines t

def renderCmd (ls : List CmdLine) : Str := joinLines (ls.map renderLine)

def isPrepLine : CmdLine → Bool
  | .prep _ => true
  | .inv _ _ _ => false

/-- No newline character occurs in the string. -/
def noNl (s : Str) : Bool := s.all (fun d => !(d = '\n'))

def lineOk : CmdLine → Bool
  | .prep s =>
    !s.isEmpty && !hasSub eKey s && noNl s && !isSpace (s.headD 'x')
  | .inv ws1 ws2 args =>
    ws1.all isSpace && noNl ws1 && ws2.all isSpace && noNl ws2 && noNl args

def countInv : List CmdLine → Nat
  | [] => 0
  | .inv _ _ _ :: t => countInv t + 1
  | .prep _ :: t => countInv t

/-- The grouping the splitter performs: every invocation line closes a
block consisting of it and all preparation lines accumulated since the
previous invocation line; trailing preparation lines after the last
invocation line belong to no block. -/
def groupsAux (acc : List CmdLine) : List CmdLine → List (List CmdLine)
  | [] => []
  | l :: t =>
    match l with
    | .prep _ => groupsAux (acc ++ [l]) t
    | .inv _ _ _ => (acc ++ [l]) :: groupsAux [] t

/-- The value component of running one block from the fresh scope (the
incoming alarm state does not influence it). -/
def blockResult (mt : Nat) (interp : Interp) (b : Str) : Except Str PyVal :=
  (execute_with_timeout mt interp b freshScope 0).1

/-- The entry a successfully-run block contributes to the result list. -/
def entryOf (mt : Nat) (interp : Interp) (b : Str) : PyVal :=
  match blockResult mt interp b with
  | .ok v => blockEntry v b
  | .error _ => .pystr []

/-! ## Scenario texts and concrete fixtures

The s-texts below are the well-formed and partially-formed response
families over which the parser theorems are stated; the w-fixtures are
concrete instantiations used by the closed corollaries at the end of
the file. -/

/-- The generated-command section: marker, newline, fenced code. -/
def gcBlock (c : Str) : Str := mkGenCmdColon ++ '\n' :: (fenceOpen ++ (c ++ fenceClose))

/-- Free text missing the Analysis marker. -/
def s1Text (x e c : Str) : Str := x ++ (mkCmdExpColon ++ (e ++ gcBlock c))

/-- Free text missing the Command Explanation marker. -/
def s2Text (a c : Str) : Str := mkAnalysis ++ (a ++ gcBlock c)

/-- Free text missing the Generated Command section. -/
def s3Text (a e : Str) : Str := mkAnalysis ++ (a ++ (mkCmdExpColon ++ e))

def wBlock1 : Str := "execution = tool.execute(1)".data
def wBlock2 : Str := "execution = tool.execute(2)".data
def wCmdTwo : Str := ("execution = tool.execute(1)\nexecution = tool.execute(2)").data

/-- Exec oracle that raises on the second block. -/
def wInterpRaise : Interp := fun b _ =>
  if b = wBlock2 then .raised ("ZeroDivisionError".data)
  else .done [(executionName, PyVal.obj 1)]

/-- Exec oracle whose first block runs past the deadline. -/
def wInterpTimeout : Interp := fun b _ =>
  if b = wBlock1 then .timedOut
  else .done [(executionName, PyVal.obj 2)]

/-- Exec oracle that always completes with a captured value. -/
def wInterpDone : Interp := fun _ _ => .done [(executionName, PyVal.obj 3)]

/-- Exec oracle that completes with the result name bound to None. -/
def wInterpNone : Interp := fun _ _ => .done [(executionName, PyVal.pynone)]

/-- A two-line command: one preparation line, one invocation line. -/
def wLines : List CmdLine :=
  [CmdLine.prep ("labels = [1]".data),
   CmdLine.inv (" ".data) (" ".data) ("x".data)]

def wPreps : List CmdLine :=
  [CmdLine.prep ("image = 1".data), CmdLine.prep ("labels = 2".data)]

/-! ## Supporting lemmas about the scanning functions -/

theorem lit_length {p s r : Str} (h : lit p s = some r) :
    s.length = p.length + r.length := by
  induction p generalizing s with
  | nil => simp [lit] at h; simp [h]
  | cons a ps ih =>
    cases s with
    | nil => simp [lit] at h
    | cons c cs =>
      simp only [lit] at h
      split at h
      · simpa [Nat.succ_add] using ih h
      · exact absurd h (by simp)

theorem findLastNl_lt {r : Str} {j : Nat} (h : findLastNl r = some j) :
    j < r.length := by
  induction r generalizing j with
  | nil => simp [findLastNl] at h
  | cons c cs ih =>
    simp only [findLastNl] at h
    split at h
    · rename_i j' hj'
      cases Option.some.inj h
      have := ih hj'
      simp only [List.length_cons]
      omega
    · split at h
      · cases Option.some.inj h; simp
      · exact absurd h (by simp)

theorem tailWsEnd_le {t : Str} {m : Nat} (h : tailWsEnd t = some m) :
    m ≤ t.length := by
  have hp : (t.takeWhile isSpace).length ≤ t.length :=
    (List.takeWhile_prefix _).length_le
  unfold tailWsEnd at h
  split at h
  · rename_i hlen
    have := Option.some.inj h
    omega
  · split at h
    · rename_i j hj
      have := Option.some.inj h
      have hjr := findLastNl_lt hj
      omega
    · exact absurd h (by simp)

theorem lastParenMatch_pos {line rest : Str} {m : Nat}
    (h : lastParenMatch line rest = some m) : 0 < m := by
  induction line generalizing m with
  | nil => simp [lastParenMatch] at h
  | cons c cs ih =>
    simp only [lastParenMatch] at h
    split at h
    · cases h; exact Nat.succ_pos _
    · split at h
      · rcases Option.map_eq_some'.1 h with ⟨k, _, hk⟩
        omega
      · exact absurd h (by simp)

theorem lastParenMatch_le {line rest : Str} {m : Nat}
    (h : lastParenMatch line rest = some m) : m ≤ line.length + rest.length := by
  induction line generalizing m with
  | nil => simp [lastParenMatch] at h
  | cons c cs ih =>
    simp only [lastParenMatch] at h
    split at h
    · rename_i k hk
      cases h
      have := ih hk
      simp only [List.length_cons]
      omega
    · split at h
      · rcases Option.map_eq_some'.1 h with ⟨k, hk, hke⟩
        have := tailWsEnd_le hk
        simp only [List.length_append] at this
        simp only [List.length_cons]
        omega
      · exact absurd h (by simp)

theorem matchCore_pos {s : Str} {m : Nat} (h : matchCore s = some m) : 0 < m := by
  unfold matchCore at h
  split at h
  · exact absurd h (by simp)
  · rename_i s1 hs1
    split at h
    · exact absurd h (by simp)
    · rename_i c s3 hdrop
      split at h
      · split at h
        · exact absurd h (by simp)
        · rename_i s5 hs5
          split at h
          · exact absurd h (by simp)
          · rename_i k hk
            cases h
            have := lastParenMatch_pos hk
            omega
      · exact absurd h (by simp)

theorem matchCore_le {s : Str} {m : Nat} (h : matchCore s = some m) :
    m ≤ s.length := by
  unfold matchCore at h
  split at h
  · exact absurd h (by simp)
  · rename_i s1 hs1
    split at h
    · exact absurd h (by simp)
    · rename_i c s3 hdrop
      split at h
      · split at h
        · exact absurd h (by simp)
        · rename_i s5 hs5
          split at h
          · exact absurd h (by simp)
          · rename_i k hk
            cases h
            have hle := lastParenMatch_le hk
            have hlen : (s5.takeWhile (fun d => !(d = '\n'))).length
                + (s5.drop (s5.takeWhile (fun d => !(d = '\n'))).length).length
                = s5.length := by
              rw [List.length_drop]
              have : (s5.takeWhile (fun d => !(d = '\n'))).length ≤ s5.length :=
                (List.takeWhile_prefix _).length_le
              omega
            have hs5le : s5.length ≤ s.length := by
              have h1 := lit_length hs1
              have h2 := lit_length hs5
              have h3 : s3.length ≤ s1.length := by
                have hd : (s1.dropWhile isSpace).length ≤ s1.length :=
                  (List.dropWhile_suffix _).length_le
                rw [hdrop] at hd
                simp at hd; omega
              have h4 : (s3.dropWhile isSpace).length ≤ s3.length :=
                (List.dropWhile_suffix _).length_le
              omega
            omega
      · exact absurd h (by simp)

theorem findMatchEnd_pos {s : Str} {e : Nat} (h : findMatchEnd s = some e) :
    0 < e ∧ e ≤ s.length := by
  induction s generalizing e with
  | nil => simp [findMatchEnd] at h
  | cons c t ih =>
    simp only [findMatchEnd] at h
    split at h
    · rename_i m hm
      cases h
      exact ⟨matchCore_pos hm, matchCore_le hm⟩
    · rcases Option.map_eq_some'.1 h with ⟨k, hk, hke⟩
      rcases ih hk with ⟨h1, h2⟩
      subst hke
      constructor
      · omega
      · simp only [List.length_cons]; omega

theorem splitLoop_of_none {s : Str} (h : findMatchEnd s = none) :
    splitLoop s = [] := by
  rw [splitLoop]
  split
  · rfl
  · rename_i e he
    rw [h] at he
    cases he

theorem splitLoop_of_some {s : Str} {e : Nat} (h : findMatchEnd s = some e) :
    splitLoop s = s.take e :: splitLoop (s.drop e) := by
  rw [splitLoop]
  split
  · rename_i hn
    rw [h] at hn
    cases hn
  · rename_i e' he
    rw [h] at he
    rw [Option.some.inj he]

theorem splitLoopF_eq : ∀ (fuel : Nat) (s : Str), s.length ≤ fuel →
    splitLoopF fuel s = splitLoop s := by
  intro fuel
  induction fuel with
  | zero =>
    intro s hs
    have : s = [] := List.length_eq_zero.1 (Nat.le_zero.1 hs)
    subst this
    rw [@splitLoop_of_none [] rfl]
    rfl
  | succ f ih =>
    intro s hs
    cases hfm : findMatchEnd s with
    | none =>
      rw [splitLoop_of_none hfm]
      simp [splitLoopF, hfm]
    | some e =>
      rw [splitLoop_of_some hfm]
      have hpos := findMatchEnd_pos hfm
      have : (s.drop e).length ≤ f := by
        rw [List.length_drop]
        omega
      simp [splitLoopF, hfm, ih _ this]

theorem split_commands_def (command : Str) :
    split_commands command =
      ((splitLoop command).map strip).filter (fun b => !b.isEmpty) := by
  unfold split_commands
  rw [splitLoopF_eq _ _ (le_refl _)]

theorem lit_self_append (p r : Str) : lit p (p ++ r) = some r := by
  induction p with
  | nil => simp [lit]
  | cons c t ih => simp [lit, ih]

theorem lit_eq_append {p s r : Str} (h : lit p s = some r) : s = p ++ r := by
  induction p generalizing s with
  | nil => simp [lit] at h; simp [h]
  | cons c t ih =>
    cases s with
    | nil => simp [lit] at h
    | cons d ds =>
      simp only [lit] at h
      split at h
      · rename_i hcd
        subst hcd
        simpa using ih h
      · exact absurd h (by simp)

theorem startsWith_correct {p s : Str} :
    startsWith p s = true ↔ p <+: s := by
  constructor
  · intro h
    rcases Option.isSome_iff_exists.1 h with ⟨r, hr⟩
    exact ⟨r, (lit_eq_append hr).symm⟩
  · rintro ⟨r, hr⟩
    subst hr
    simp [startsWith, lit_self_append]

theorem startsWith_false_short {p s : Str} (h : s.length < p.length) :
    startsWith p s = false := by
  cases hb : startsWith p s
  · rfl
  · have hp := startsWith_correct.1 hb
    have := hp.length_le
    omega

theorem startsWith_long_mem {n x : Str} {c : Char} {y : Str}
    (h : startsWith n (x ++ c :: y) = true) (hlen : x.length < n.length) :
    c ∈ n := by
  rcases startsWith_correct.1 h with ⟨r, hr⟩
  have h1 : (x ++ c :: y)[x.length]? = some c := by
    rw [List.getElem?_append_right (le_refl _)]
    simp
  rw [← hr] at h1
  rw [List.getElem?_append, if_pos hlen] at h1
  exact List.getElem?_mem h1

theorem startsWith_shorten {n x b : Str} (h : startsWith n (x ++ b) = true)
    (hlen : n.length ≤ x.length) : startsWith n x = true := by
  have h1 := startsWith_correct.1 h
  have h2 : x <+: x ++ b := ⟨b, rfl⟩
  exact startsWith_correct.2 (List.prefix_of_prefix_length_le h1 h2 hlen)

theorem hasSub_of_startsWith {n s : Str} (h : startsWith n s = true) :
    hasSub n s = true := by
  cases s with
  | nil =>
    unfold startsWith at h
    simp [hasSub, h]
  | cons c t => simp [hasSub, h]

theorem hasSub_cons_of {n : Str} {c : Char} {t : Str} (h : hasSub n t = true) :
    hasSub n (c :: t) = true := by
  simp [hasSub, h]

theorem hasSub_cons_elim {n : Str} {c : Char} {t : Str}
    (h : hasSub n (c :: t) = true) :
    startsWith n (c :: t) = true ∨ hasSub n t = true := by
  simpa [hasSub] using h

theorem hasSub_nil_of_ne {n : Str} (h : n ≠ []) : hasSub n [] = false := by
  cases n with
  | nil => exact absurd rfl h
  | cons c t => simp [hasSub, lit]

theorem hasSub_of_drop {n s : Str} {i : Nat} (h : hasSub n (s.drop i) = true) :
    hasSub n s = true := by
  induction s generalizing i with
  | nil => simpa using h
  | cons c t ih =>
    cases i with
    | zero => simpa using h
    | succ j =>
      simp only [List.drop_succ_cons] at h
      exact hasSub_cons_of (ih h)

/-- An occurrence of a newline-free needle in text of the form
left ++ newline ++ right lies entirely in the left or the right part. -/
theorem hasSub_split_nl {n l Q : Str} (h : hasSub n (l ++ '\n' :: Q) = true) :
    hasSub n l = true ∨ '\n' ∈ n ∨ hasSub n Q = true := by
  induction l with
  | nil =>
    simp only [List.nil_append] at h
    rcases hasSub_cons_elim h with hs | ht
    · cases n with
      | nil => left; simp [hasSub, startsWith, lit]
      | cons m ms =>
        right; left
        rcases startsWith_correct.1 hs with ⟨r, hr⟩
        have hm : m = '\n' := by
          have := hr
          simp only [List.cons_append, List.cons.injEq] at this
          exact this.1
        simp [hm]
    · right; right; exact ht
  | cons c l' ih =>
    rcases hasSub_cons_elim (by simpa using h) with hs | ht
    · by_cases hlen : n.length ≤ (c :: l').length
      · left
        exact hasSub_of_startsWith
          (@startsWith_shorten n (c :: l') _ (by simpa using hs) hlen)
      · right; left
        exact @startsWith_long_mem n (c :: l') _ _ (by simpa using hs) (by omega)
    · rcases ih ht with h1 | h2 | h3
      · left; exact hasSub_cons_of h1
      · right; left; exact h2
      · right; right; exact h3

theorem joinLines_cons (l : Str) (r : Str) (rs : List Str) :
    joinLines (l :: r :: rs) = l ++ '\n' :: joinLines (r :: rs) := rfl

/-- No occurrence of a nonempty newline-free needle in a join of lines
that each lack it. -/
theorem hasSub_joinLines_none {n : Str} {lines : List Str}
    (hn : '\n' ∉ n) (hne : n ≠ [])
    (h : ∀ l ∈ lines, hasSub n l = false) :
    hasSub n (joinLines lines) = false := by
  induction lines with
  | nil => simpa [joinLines] using hasSub_nil_of_ne hne
  | cons l rest ih =>
    cases rest with
    | nil => simpa [joinLines] using h l (by simp)
    | cons r rs =>
      rw [joinLines_cons]
      cases hh : hasSub n (l ++ '\n' :: joinLines (r :: rs))
      · rfl
      · exfalso
        rcases hasSub_split_nl hh with h1 | h2 | h3
        · rw [h l (by simp)] at h1; exact absurd h1 (by simp)
        · exact hn h2
        · rw [ih (fun x hx => h x (by simp [hx]))] at h3
          exact absurd h3 (by simp)

theorem matchCore_none_of_not_startsWith {s : Str}
    (h : startsWith eKey s = false) : matchCore s = none := by
  unfold matchCore
  have hl : lit eKey s = none := by
    unfold startsWith at h
    cases hl : lit eKey s
    · rfl
    · rw [hl] at h; simp at h
  rw [hl]

theorem findMatchEnd_none_of_no_key {s : Str} (h : hasSub eKey s = false) :
    findMatchEnd s = none := by
  induction s with
  | nil => rfl
  | cons c t ih =>
    simp only [hasSub, Bool.or_eq_false_iff] at h
    simp only [findMatchEnd, matchCore_none_of_not_startsWith h.1, ih h.2,
      Option.map_none']

/-- Scanning past a region that offers no start of the keyword: the
first match of the whole text is the first match of the rest, shifted. -/
theorem findMatchEnd_append {a b : Str}
    (hclean : ∀ i, i < a.length → startsWith eKey ((a ++ b).drop i) = false) :
    findMatchEnd (a ++ b) = (findMatchEnd b).map (· + a.length) := by
  induction a with
  | nil => simp
  | cons c a' ih =>
    have h0 := hclean 0 (by simp)
    simp only [List.drop_zero] at h0
    have hmc : matchCore (c :: (a' ++ b)) = none :=
      matchCore_none_of_not_startsWith (by simpa using h0)
    have hstep : findMatchEnd (c :: (a' ++ b)) =
        (findMatchEnd (a' ++ b)).map (· + 1) := by
      simp only [findMatchEnd, List.append_eq]
      rw [hmc]
    simp only [List.cons_append, hstep]
    rw [ih (fun i hi => by simpa using hclean (i + 1) (by simp; omega))]
    cases hb : findMatchEnd b
    · simp
    · simp only [hb, Option.map_some', Option.some.injEq, List.length_cons]
      omega

/-- Inside a region ending in a newline whose body lacks the keyword,
no position starts the keyword, whatever follows the region. -/
theorem region_clean {P b : Str} (hP : hasSub eKey P = false) :
    ∀ i, i < (P ++ ['\n']).length →
      startsWith eKey (((P ++ ['\n']) ++ b).drop i) = false := by
  intro i hi
  have hassoc : (P ++ ['\n']) ++ b = P ++ '\n' :: b := by simp
  rw [hassoc]
  have hi' : i ≤ P.length := by simp at hi; omega
  rw [List.drop_append_of_le_length hi']
  cases hb2 : startsWith eKey (P.drop i ++ '\n' :: b)
  · rfl
  · exfalso
    by_cases hlen : eKey.length ≤ (P.drop i).length
    · have hss := startsWith_shorten hb2 hlen
      have h2 : hasSub eKey P = true := hasSub_of_drop (hasSub_of_startsWith hss)
      rw [hP] at h2; exact absurd h2 (by simp)
    · have : '\n' ∈ eKey := startsWith_long_mem hb2 (by omega)
      have hno : '\n' ∉ eKey := by decide
      exact hno this

theorem tailWsEnd_nil : tailWsEnd [] = some 0 := by decide

theorem tailWsEnd_nl_head {c : Char} {t' : Str} (hc : isSpace c = false) :
    tailWsEnd ('\n' :: c :: t') = some 1 := by
  unfold tailWsEnd
  have h1 : ('\n' :: c :: t').takeWhile isSpace = ['\n'] := by
    rw [List.takeWhile_cons, if_pos (by decide), List.takeWhile_cons, if_neg (by simp [hc])]
  rw [h1]
  have hlen : ¬ (List.length ['\n'] = List.length ('\n' :: c :: t')) := by
    simp
  rw [if_neg hlen]
  rfl

theorem lastParenMatch_last {xs rest' : Str} {m : Nat}
    (h : tailWsEnd rest' = some m) :
    lastParenMatch (xs ++ [')']) rest' = some (xs.length + 1 + m) := by
  induction xs with
  | nil =>
    show lastParenMatch [')'] rest' = some (List.length ([] : Str) + 1 + m)
    simp [lastParenMatch, h]
  | cons c cs ih =>
    show lastParenMatch (c :: (cs ++ [')'])) rest' = some ((c :: cs).length + 1 + m)
    rw [lastParenMatch, ih]
    simp only [List.length_cons, Option.some.injEq]
    omega

theorem dropWhile_space_skip {ws x : Str} (h : ws.all isSpace = true) :
    (ws ++ x).dropWhile isSpace = x.dropWhile isSpace :=
  List.dropWhile_append_of_pos (by simpa [List.all_eq_true] using h)

theorem dropWhile_head_stop {c : Char} {r : Str} (hc : isSpace c = false) :
    (c :: r).dropWhile isSpace = c :: r := by
  rw [List.dropWhile_cons, if_neg (by simp [hc])]

theorem dropWhile_toolCall (x : Str) :
    (toolCallKey ++ x).dropWhile isSpace = toolCallKey ++ x := by
  have hc : toolCallKey ++ x = 't' :: ("ool.execute(".data ++ x) := rfl
  rw [hc]
  exact dropWhile_head_stop (by decide)

/-- The core regex matches at the start of a well-formed invocation
line, consuming the line plus (given by tailWsEnd) the trailing
whitespace-then-newline, for any following text that is empty or
begins with the line-terminating newline. -/
theorem matchCore_inv {ws1 ws2 args rest' : Str} {m : Nat}
    (h1 : ws1.all isSpace = true) (h2 : ws2.all isSpace = true)
    (h3 : noNl args = true)
    (hhead : rest' = [] ∨ ∃ t, rest' = '\n' :: t)
    (htail : tailWsEnd rest' = some m) :
    matchCore (renderLine (.inv ws1 ws2 args) ++ rest') =
      some ((renderLine (.inv ws1 ws2 args)).length + m) := by
  have hshape : renderLine (.inv ws1 ws2 args) ++ rest' =
      eKey ++ (ws1 ++ '=' :: (ws2 ++ (toolCallKey ++ (args ++ ')' :: rest')))) := by
    simp [renderLine, List.append_assoc]
  rw [hshape]
  unfold matchCore
  rw [lit_self_append]
  dsimp only
  rw [dropWhile_space_skip h1, dropWhile_head_stop (by decide)]
  dsimp only
  rw [if_pos rfl]
  rw [dropWhile_space_skip h2, dropWhile_toolCall]
  rw [lit_self_append]
  dsimp only
  have htake : (args ++ ')' :: rest').takeWhile (fun d => !(d = '\n')) =
      args ++ [')'] := by
    rw [List.takeWhile_append_of_pos (by simpa [noNl, List.all_eq_true] using h3)]
    rw [List.takeWhile_cons, if_pos (by decide)]
    rcases hhead with h | ⟨t, ht⟩
    · simp [h]
    · subst ht
      simp [List.takeWhile_cons]
  rw [htake]
  have hdrop : (args ++ ')' :: rest').drop (args ++ [')']).length = rest' := by
    rw [List.append_cons args ')' rest', List.drop_left]
  rw [hdrop]
  rw [lastParenMatch_last htail]
  have h9 : eKey.length = 9 := by decide
  have h13 : toolCallKey.length = 13 := by decide
  have hrl : (renderLine (.inv ws1 ws2 args)).length =
      9 + ws1.length + 1 + ws2.length + 13 + args.length + 1 := by
    simp only [renderLine, List.length_append, List.length_cons, List.length_nil,
      h9, h13]
    omega
  simp only [Option.some.injEq, List.length_append, List.length_cons,
    List.length_nil, h9, h13, hrl]
  omega

theorem findMatchEnd_inv_front {ws1 ws2 args rest' : Str} {m : Nat}
    (h1 : ws1.all isSpace = true) (h2 : ws2.all isSpace = true)
    (h3 : noNl args = true)
    (hhead : rest' = [] ∨ ∃ t, rest' = '\n' :: t)
    (htail : tailWsEnd rest' = some m) :
    findMatchEnd (renderLine (.inv ws1 ws2 args) ++ rest') =
      some ((renderLine (.inv ws1 ws2 args)).length + m) := by
  have hmc := matchCore_inv h1 h2 h3 hhead htail
  have hcons : renderLine (.inv ws1 ws2 args) ++ rest' =
      'e' :: (("xecution".data ++ ws1 ++ '=' ::
        (ws2 ++ toolCallKey ++ args ++ [')'])) ++ rest') := by
    simp [renderLine, eKey, List.append_assoc]
  rw [hcons] at hmc ⊢
  simp only [findMatchEnd, List.append_eq]
  rw [hmc]

theorem renderLine_inv_shape (ws1 ws2 args : Str) :
    renderLine (.inv ws1 ws2 args) =
      'e' :: (("xecution".data ++ ws1 ++ '=' :: (ws2 ++ toolCallKey ++ args))
        ++ [')']) := by
  simp [renderLine, eKey, List.append_assoc]

theorem renderLine_head {l : CmdLine} (h : lineOk l = true) :
    ∃ c r, renderLine l = c :: r ∧ isSpace c = false := by
  cases l with
  | prep s =>
    simp only [lineOk, Bool.and_eq_true, Bool.not_eq_true'] at h
    cases s with
    | nil => simp [List.isEmpty_nil] at h
    | cons c r =>
      refine ⟨c, r, rfl, ?_⟩
      simpa [List.headD] using h.2
  | inv ws1 ws2 args =>
    exact ⟨'e', _, renderLine_inv_shape ws1 ws2 args, by decide⟩

theorem joinLines_head {ls : List CmdLine} (hne : ls ≠ [])
    (hok : ∀ l ∈ ls, lineOk l = true) :
    ∃ c t', joinLines (ls.map renderLine) = c :: t' ∧ isSpace c = false := by
  cases ls with
  | nil => exact absurd rfl hne
  | cons l rest =>
    rcases renderLine_head (hok l (by simp)) with ⟨c, r, hr, hc⟩
    cases rest with
    | nil => exact ⟨c, r, by simp [joinLines, hr], hc⟩
    | cons l2 r2 =>
      refine ⟨c, r ++ '\n' :: joinLines ((l2 :: r2).map renderLine), ?_, hc⟩
      simp only [List.map_cons, joinLines_cons, hr, List.cons_append]

theorem joinLines_append {xs : List Str} {y : Str} {ys : List Str}
    (h : xs ≠ []) :
    joinLines (xs ++ y :: ys) = joinLines xs ++ '\n' :: joinLines (y :: ys) := by
  induction xs with
  | nil => exact absurd rfl h
  | cons a rest ih =>
    cases rest with
    | nil => simp [joinLines, joinLines_cons]
    | cons b bs =>
      have hr := ih (by simp)
      simp only [List.cons_append] at hr ⊢
      rw [joinLines_cons, joinLines_cons, hr, List.append_assoc]
      rfl

theorem prep_join_no_key {acc : List CmdLine}
    (hacc : ∀ l ∈ acc, isPrepLine l = true ∧ lineOk l = true) :
    hasSub eKey (joinLines (acc.map renderLine)) = false := by
  apply hasSub_joinLines_none (by decide) (by decide)
  intro l hl
  rcases List.mem_map.1 hl with ⟨cl, hcl, rfl⟩
  rcases hacc cl hcl with ⟨hprep, hok⟩
  cases cl with
  | prep s =>
    simp only [lineOk, Bool.and_eq_true, Bool.not_eq_true'] at hok
    simpa [renderLine] using hok.1.1.2
  | inv ws1 ws2 args => simp [isPrepLine] at hprep

theorem strip_block {c d : Char} {x : Str}
    (hc : isSpace c = false) (hd : isSpace d = false) :
    strip (c :: (x ++ [d])) = c :: (x ++ [d]) := by
  unfold strip
  rw [dropWhile_head_stop hc]
  have hrev : (c :: (x ++ [d])).reverse = d :: (x.reverse ++ [c]) := by simp
  rw [hrev, dropWhile_head_stop hd, ← hrev, List.reverse_reverse]

theorem strip_block_nl {c d : Char} {x : Str}
    (hc : isSpace c = false) (hd : isSpace d = false) :
    strip ((c :: (x ++ [d])) ++ ['\n']) = c :: (x ++ [d]) := by
  unfold strip
  have hsh : (c :: (x ++ [d])) ++ ['\n'] = c :: (x ++ [d] ++ ['\n']) := by simp
  rw [hsh, dropWhile_head_stop hc]
  have hrev : (c :: (x ++ [d] ++ ['\n'])).reverse =
      '\n' :: d :: (x.reverse ++ [c]) := by simp
  rw [hrev]
  rw [List.dropWhile_cons, if_pos (by decide), dropWhile_head_stop hd]
  simp

/-- The step the splitter takes at the head of a command whose first
line is an invocation line: the first match covers the invocation line
(plus its newline when more lines follow), and the scan continues on
the remaining lines. -/
theorem splitLoop_inv_step {ws1 ws2 args : Str} {t : List CmdLine}
    (hw1 : ws1.all isSpace = true) (hw2 : ws2.all isSpace = true)
    (hargs : noNl args = true)
    (ht : ∀ l ∈ t, lineOk l = true) :
    ∃ e',
      findMatchEnd (joinLines (renderLine (.inv ws1 ws2 args) :: t.map renderLine))
        = some e' ∧
      ((joinLines (renderLine (.inv ws1 ws2 args) :: t.map renderLine)).take e'
          = renderLine (.inv ws1 ws2 args) ∨
        (joinLines (renderLine (.inv ws1 ws2 args) :: t.map renderLine)).take e'
          = renderLine (.inv ws1 ws2 args) ++ ['\n']) ∧
      (joinLines (renderLine (.inv ws1 ws2 args) :: t.map renderLine)).drop e'
        = joinLines (t.map renderLine) := by
  cases t with
  | nil =>
    refine ⟨(renderLine (.inv ws1 ws2 args)).length, ?_, ?_, ?_⟩
    · have := @findMatchEnd_inv_front ws1 ws2 args [] 0 hw1 hw2 hargs
        (Or.inl rfl) tailWsEnd_nil
      simpa [joinLines] using this
    · left
      simp [joinLines, List.take_length]
    · simp [joinLines]
  | cons l2 t2 =>
    have hmapne : (l2 :: t2).map renderLine = renderLine l2 :: t2.map renderLine :=
      List.map_cons _ _ _
    rcases @joinLines_head (l2 :: t2) (by simp) ht with ⟨c, t', hT, hc⟩
    have hjoin : joinLines (renderLine (.inv ws1 ws2 args) :: (l2 :: t2).map renderLine)
        = renderLine (.inv ws1 ws2 args) ++ '\n' ::
            joinLines ((l2 :: t2).map renderLine) := by
      rw [hmapne, joinLines_cons]
    refine ⟨(renderLine (.inv ws1 ws2 args)).length + 1, ?_, ?_, ?_⟩
    · rw [hjoin, hT]
      exact findMatchEnd_inv_front hw1 hw2 hargs (Or.inr ⟨_, rfl⟩)
        (tailWsEnd_nl_head hc)
    · right
      rw [hjoin]
      have hsh : renderLine (.inv ws1 ws2 args) ++ '\n' ::
          joinLines ((l2 :: t2).map renderLine) =
          (renderLine (.inv ws1 ws2 args) ++ ['\n']) ++
            joinLines ((l2 :: t2).map renderLine) := by simp
      rw [hsh]
      have : (renderLine (.inv ws1 ws2 args)).length + 1 =
          (renderLine (.inv ws1 ws2 args) ++ ['\n']).length := by simp
      rw [this, List.take_left]
    · rw [hjoin]
      have hsh : renderLine (.inv ws1 ws2 args) ++ '\n' ::
          joinLines ((l2 :: t2).map renderLine) =
          (renderLine (.inv ws1 ws2 args) ++ ['\n']) ++
            joinLines ((l2 :: t2).map renderLine) := by simp
      rw [hsh]
      have : (renderLine (.inv ws1 ws2 args)).length + 1 =
          (renderLine (.inv ws1 ws2 args) ++ ['\n']).length := by simp
      rw [this, List.drop_left]

/-- Structure theorem for the splitter on line-structured commands:
stripping the raw findall matches yields exactly the rendered groups
(preparation lines attached to the following invocation line). -/
theorem splitLoop_groups : ∀ (ls acc : List CmdLine),
    (∀ l ∈ acc, isPrepLine l = true ∧ lineOk l = true) →
    (∀ l ∈ ls, lineOk l = true) →
    (splitLoop (renderCmd (acc ++ ls))).map strip =
      (groupsAux acc ls).map renderCmd := by
  intro ls
  induction ls with
  | nil =>
    intro acc hacc _
    have hP : hasSub eKey (renderCmd (acc ++ [])) = false := by
      simp only [List.append_nil, renderCmd]
      exact prep_join_no_key hacc
    rw [splitLoop_of_none (findMatchEnd_none_of_no_key hP)]
    rfl
  | cons l t ih =>
    intro acc hacc hls
    cases l with
    | prep p =>
      have hstep : acc ++ (CmdLine.prep p :: t) = (acc ++ [CmdLine.prep p]) ++ t :=
        List.append_cons acc (CmdLine.prep p) t
      rw [hstep]
      have hacc' : ∀ l ∈ acc ++ [CmdLine.prep p],
          isPrepLine l = true ∧ lineOk l = true := by
        intro l hl
        rcases List.mem_append.1 hl with h | h
        · exact hacc l h
        · simp only [List.mem_singleton] at h
          subst h
          exact ⟨rfl, hls _ (by simp)⟩
      rw [ih (acc ++ [CmdLine.prep p]) hacc' (fun l hl => hls l (by simp [hl]))]
      rfl
    | inv ws1 ws2 args =>
      have hok := hls (CmdLine.inv ws1 ws2 args) (by simp)
      simp only [lineOk, Bool.and_eq_true] at hok
      obtain ⟨⟨⟨⟨hw1, hn1⟩, hw2⟩, hn2⟩, hargs⟩ := hok
      have htl : ∀ l ∈ t, lineOk l = true := fun l hl => hls l (by simp [hl])
      obtain ⟨e', hfm, htk, hdr⟩ := splitLoop_inv_step hw1 hw2 hargs htl
      have hrec := ih [] (by simp) htl
      simp only [List.nil_append] at hrec
      cases acc with
      | nil =>
        simp only [List.nil_append]
        have hrc : renderCmd (CmdLine.inv ws1 ws2 args :: t) =
            joinLines (renderLine (.inv ws1 ws2 args) :: t.map renderLine) := rfl
        rw [hrc, splitLoop_of_some hfm, List.map_cons, hdr]
        have hstrip : strip ((joinLines (renderLine (.inv ws1 ws2 args) ::
            t.map renderLine)).take e') = renderLine (.inv ws1 ws2 args) := by
          rcases htk with h | h
          · rw [h, renderLine_inv_shape]
            exact strip_block (by decide) (by decide)
          · rw [h, renderLine_inv_shape]
            have := @strip_block_nl 'e' ')'
              ("xecution".data ++ ws1 ++ '=' :: (ws2 ++ toolCallKey ++ args))
              (by decide) (by decide)
            rw [← renderLine_inv_shape] at this ⊢
            exact this
        rw [hstrip]
        show renderLine (.inv ws1 ws2 args) ::
            (splitLoop (renderCmd t)).map strip =
          ((([] : List CmdLine) ++ [CmdLine.inv ws1 ws2 args]) ::
            groupsAux [] t).map renderCmd
        rw [List.map_cons, hrec]
        rfl
      | cons a0 arest =>
        have hPne : (a0 :: arest).map renderLine ≠ [] := by simp
        rcases @joinLines_head (a0 :: arest) (by simp)
          (fun l hl => (hacc l hl).2) with ⟨c0, p', hPshape, hc0⟩
        have hmap : ((a0 :: arest) ++ CmdLine.inv ws1 ws2 args :: t).map renderLine
            = (a0 :: arest).map renderLine ++
              renderLine (.inv ws1 ws2 args) :: t.map renderLine := by
          simp
        have hrcmd : renderCmd ((a0 :: arest) ++ CmdLine.inv ws1 ws2 args :: t) =
            (joinLines ((a0 :: arest).map renderLine) ++ ['\n']) ++
              joinLines (renderLine (.inv ws1 ws2 args) :: t.map renderLine) := by
          show joinLines (((a0 :: arest) ++ CmdLine.inv ws1 ws2 args :: t).map renderLine) = _
          rw [hmap, joinLines_append hPne]
          simp
        have hP : hasSub eKey (joinLines ((a0 :: arest).map renderLine)) = false :=
          prep_join_no_key hacc
        have hfm2 : findMatchEnd
            (renderCmd ((a0 :: arest) ++ CmdLine.inv ws1 ws2 args :: t)) =
            some ((joinLines ((a0 :: arest).map renderLine) ++ ['\n']).length + e') := by
          rw [hrcmd, findMatchEnd_append (region_clean hP), hfm]
          simp [Nat.add_comm]
        rw [splitLoop_of_some hfm2]
        have htake : (renderCmd ((a0 :: arest) ++ CmdLine.inv ws1 ws2 args :: t)).take
            ((joinLines ((a0 :: arest).map renderLine) ++ ['\n']).length + e') =
            (joinLines ((a0 :: arest).map renderLine) ++ ['\n']) ++
              (joinLines (renderLine (.inv ws1 ws2 args) :: t.map renderLine)).take e' := by
          rw [hrcmd, List.take_append]
        have hdrop : (renderCmd ((a0 :: arest) ++ CmdLine.inv ws1 ws2 args :: t)).drop
            ((joinLines ((a0 :: arest).map renderLine) ++ ['\n']).length + e') =
            joinLines (t.map renderLine) := by
          rw [hrcmd, List.drop_append, hdr]
        rw [List.map_cons, htake, hdrop]
        have hgroup : renderCmd ((a0 :: arest) ++ [CmdLine.inv ws1 ws2 args]) =
            (joinLines ((a0 :: arest).map renderLine) ++ ['\n']) ++
              renderLine (.inv ws1 ws2 args) := by
          have hmap2 : ((a0 :: arest) ++ [CmdLine.inv ws1 ws2 args]).map renderLine
              = (a0 :: arest).map renderLine ++
                renderLine (.inv ws1 ws2 args) :: ([] : List Str) := by
            simp
          show joinLines (((a0 :: arest) ++ [CmdLine.inv ws1 ws2 args]).map renderLine) = _
          rw [hmap2, joinLines_append hPne]
          simp [joinLines]
        have hstrip : strip ((joinLines ((a0 :: arest).map renderLine) ++ ['\n']) ++
            (joinLines (renderLine (.inv ws1 ws2 args) :: t.map renderLine)).take e') =
            renderCmd ((a0 :: arest) ++ [CmdLine.inv ws1 ws2 args]) := by
          have hshape : (joinLines ((a0 :: arest).map renderLine) ++ ['\n']) ++
              renderLine (.inv ws1 ws2 args) =
              c0 :: ((p' ++ '\n' :: 'e' ::
                ("xecution".data ++ ws1 ++ '=' :: (ws2 ++ toolCallKey ++ args)))
                ++ [')']) := by
            rw [hPshape, renderLine_inv_shape]
            simp [List.append_assoc]
          rcases htk with h | h
          · rw [h, hgroup, hshape]
            exact strip_block hc0 (by decide)
          · rw [h, hgroup, hshape]
            have hnl : (joinLines ((a0 :: arest).map renderLine) ++ ['\n']) ++
                (renderLine (.inv ws1 ws2 args) ++ ['\n']) =
                (c0 :: ((p' ++ '\n' :: 'e' ::
                  ("xecution".data ++ ws1 ++ '=' :: (ws2 ++ toolCallKey ++ args)))
                  ++ [')'])) ++ ['\n'] := by
              rw [← hshape]
              simp [List.append_assoc]
            rw [hnl]
            exact strip_block_nl hc0 (by decide)
        rw [hstrip]
        show renderCmd ((a0 :: arest) ++ [CmdLine.inv ws1 ws2 args]) ::
            (splitLoop (renderCmd t)).map strip =
          (groupsAux (a0 :: arest) (CmdLine.inv ws1 ws2 args :: t)).map renderCmd
        rw [hrec]
        rfl

/-! ## Properties of strip, rstrip and normalize_code -/

theorem dropWhile_head_not {p : Char → Bool} {l : Str} {c : Char}
    (h : (l.dropWhile p).head? = some c) : p c = false := by
  induction l with
  | nil => simp [List.dropWhile_nil] at h
  | cons a t ih =>
    rw [List.dropWhile_cons] at h
    split at h
    · exact ih h
    · rename_i hpa
      have hca : a = c := by simpa using h
      subst hca
      simpa using hpa

theorem suffix_getLast? {v w : Str} (hs : v <:+ w) (hne : v ≠ []) :
    v.getLast? = w.getLast? := by
  rcases hs with ⟨t, rfl⟩
  exact (List.getLast?_append_of_ne_nil t hne).symm

theorem strip_head_not {s : Str} {c : Char}
    (h : (strip s).head? = some c) : isSpace c = false := by
  unfold strip at h
  rw [List.head?_reverse] at h
  have hv : ((s.dropWhile isSpace).reverse.dropWhile isSpace) ≠ [] := by
    intro hnil
    rw [hnil] at h
    simp at h
  have hlast := suffix_getLast? (@List.dropWhile_suffix _ ((s.dropWhile isSpace).reverse) isSpace) hv
  rw [h] at hlast
  rw [List.getLast?_reverse] at hlast
  exact dropWhile_head_not hlast.symm

theorem strip_getLast_not {s : Str} {c : Char}
    (h : (strip s).getLast? = some c) : isSpace c = false := by
  unfold strip at h
  rw [List.getLast?_reverse] at h
  exact dropWhile_head_not h

theorem strip_no_op {s : Str}
    (h1 : ∀ c, s.head? = some c → isSpace c = false)
    (h2 : ∀ c, s.getLast? = some c → isSpace c = false) :
    strip s = s := by
  cases s with
  | nil => rfl
  | cons a t =>
    unfold strip
    rw [dropWhile_head_stop (h1 a rfl)]
    cases hr : (a :: t).reverse with
    | nil => simp at hr
    | cons b r =>
      have hb : isSpace b = false :=
        h2 b (by rw [← List.head?_reverse, hr]; rfl)
      rw [dropWhile_head_stop hb, ← hr, List.reverse_reverse]

theorem strip_idem (s : Str) : strip (strip s) = strip s :=
  strip_no_op (fun _ h => strip_head_not h) (fun _ h => strip_getLast_not h)

theorem rstripBackticks_no_op {s : Str} (h : s.getLast? ≠ some '`') :
    rstripBackticks s = s := by
  unfold rstripBackticks
  cases hr : s.reverse with
  | nil =>
    have : s = [] := by simpa using congrArg List.reverse hr
    simp [this]
  | cons b r =>
    have hb : ¬ (b = '`') := by
      intro hb
      apply h
      rw [← List.head?_reverse, hr, hb]
      rfl
    rw [List.dropWhile_cons, if_neg (by simpa using hb), ← hr, List.reverse_reverse]

theorem lit_none_of_not_startsWith {p s : Str} (h : startsWith p s = false) :
    lit p s = none := by
  unfold startsWith at h
  cases hl : lit p s
  · rfl
  · rw [hl] at h; simp at h

/-- normalize_code is the identity on an already-stripped string that
does not begin with the fence marker and does not end in a backtick. -/
theorem normalize_code_no_op {y : Str}
    (hfence : startsWith fenceTag y = false)
    (hbt : y.getLast? ≠ some '`')
    (hstrip : strip y = y) :
    normalize_code y = y := by
  unfold normalize_code
  rw [lit_none_of_not_startsWith hfence]
  show strip (rstripBackticks y) = y
  rw [rstripBackticks_no_op hbt]
  exact hstrip

/-- Every group produced by the grouping function consists of
preparation lines followed by exactly one invocation line. -/
theorem groupsAux_shape : ∀ {ls acc : List CmdLine} {g : List CmdLine},
    g ∈ groupsAux acc ls →
    (∀ l ∈ acc, isPrepLine l = true ∧ lineOk l = true) →
    (∀ l ∈ ls, lineOk l = true) →
    ∃ preps ws1 ws2 args, g = preps ++ [CmdLine.inv ws1 ws2 args] ∧
      (∀ l ∈ preps, isPrepLine l = true ∧ lineOk l = true) ∧
      lineOk (CmdLine.inv ws1 ws2 args) = true := by
  intro ls
  induction ls with
  | nil => intro acc g hg _ _; simp [groupsAux] at hg
  | cons l t ih =>
    intro acc g hg hacc hls
    cases l with
    | prep p =>
      have hacc' : ∀ x ∈ acc ++ [CmdLine.prep p],
          isPrepLine x = true ∧ lineOk x = true := by
        intro x hx
        rcases List.mem_append.1 hx with h | h
        · exact hacc x h
        · simp only [List.mem_singleton] at h
          subst h
          exact ⟨rfl, hls _ (by simp)⟩
      exact @ih (acc ++ [CmdLine.prep p]) g hg hacc'
        (fun x hx => hls x (by simp [hx]))
    | inv ws1 ws2 args =>
      rcases List.mem_cons.1 hg with h | h
      · exact ⟨acc, ws1, ws2, args, h, hacc, hls _ (by simp)⟩
      · exact @ih [] g h (by simp) (fun x hx => hls x (by simp [hx]))

/-- split_commands on a line-structured command equals the rendered
groups: strip is applied to each match and no block is dropped by the
non-emptiness filter. -/
theorem split_commands_groups {ls : List CmdLine}
    (hls : ∀ l ∈ ls, lineOk l = true) :
    split_commands (renderCmd ls) = (groupsAux [] ls).map renderCmd := by
  rw [split_commands_def]
  rw [show renderCmd ls = renderCmd ([] ++ ls) from rfl]
  rw [splitLoop_groups ls [] (by simp) hls]
  apply List.filter_eq_self.2
  intro b hb
  rcases List.mem_map.1 hb with ⟨g, hg, rfl⟩
  rcases groupsAux_shape hg (by simp) hls
    with ⟨preps, ws1, ws2, args, rfl, hpok, hiok⟩
  have hok : ∀ x ∈ preps ++ [CmdLine.inv ws1 ws2 args], lineOk x = true := by
    intro x hx
    rcases List.mem_append.1 hx with h | h
    · exact (hpok x h).2
    · simp only [List.mem_singleton] at h
      subst h
      exact hiok
  rcases @joinLines_head (preps ++ [CmdLine.inv ws1 ws2 args])
    (by simp) hok with ⟨c, r, hcr, _⟩
  have : renderCmd (preps ++ [CmdLine.inv ws1 ws2 args]) = c :: r := hcr
  simp [this]

/-! ## Counting and trailing-text lemmas for the grouping -/

theorem groupsAux_length : ∀ (ls acc : List CmdLine),
    (groupsAux acc ls).length = countInv ls := by
  intro ls
  induction ls with
  | nil => intro acc; rfl
  | cons l t ih =>
    intro acc
    cases l with
    | prep p => simpa [groupsAux, countInv] using ih (acc ++ [CmdLine.prep p])
    | inv ws1 ws2 args => simp [groupsAux, countInv, ih []]

theorem groupsAux_all_prep : ∀ {tp acc : List CmdLine},
    (∀ l ∈ tp, isPrepLine l = true) → groupsAux acc tp = [] := by
  intro tp
  induction tp with
  | nil => intro acc _; rfl
  | cons l t ih =>
    intro acc htp
    cases l with
    | prep p => exact ih (fun x hx => htp x (by simp [hx]))
    | inv ws1 ws2 args =>
      have := htp (CmdLine.inv ws1 ws2 args) (by simp)
      simp [isPrepLine] at this

theorem groupsAux_append_trailing : ∀ (ls : List CmdLine) {tp acc : List CmdLine},
    (∀ l ∈ tp, isPrepLine l = true) →
    groupsAux acc (ls ++ tp) = groupsAux acc ls := by
  intro ls
  induction ls with
  | nil =>
    intro tp acc htp
    simpa using groupsAux_all_prep htp
  | cons l t ih =>
    intro tp acc htp
    cases l with
    | prep p => simpa [groupsAux] using ih htp
    | inv ws1 ws2 args => simp [groupsAux, ih htp]

theorem groupsAux_prep_inv : ∀ (preps : List CmdLine) (acc : List CmdLine)
    (ws1 ws2 args : Str), (∀ l ∈ preps, isPrepLine l = true) →
    groupsAux acc (preps ++ [CmdLine.inv ws1 ws2 args]) =
      [acc ++ preps ++ [CmdLine.inv ws1 ws2 args]] := by
  intro preps
  induction preps with
  | nil => intro acc ws1 ws2 args _; simp [groupsAux]
  | cons l t ih =>
    intro acc ws1 ws2 args hp
    cases l with
    | prep p =>
      have := ih (acc ++ [CmdLine.prep p]) ws1 ws2 args
        (fun x hx => hp x (by simp [hx]))
      simpa [groupsAux, List.append_assoc] using this
    | inv w1 w2 a3 =>
      have := hp (CmdLine.inv w1 w2 a3) (by simp)
      simp [isPrepLine] at this

/-- A needle occurs in any text that contains it literally. -/
theorem hasSub_append_mid (x n y : Str) : hasSub n (x ++ (n ++ y)) = true := by
  induction x with
  | nil =>
    simp only [List.nil_append]
    cases n with
    | nil =>
      cases y with
      | nil => simp [hasSub, lit]
      | cons c t => simp [hasSub, startsWith, lit]
    | cons c t =>
      have hsw : startsWith (c :: t) (c :: (t ++ y)) = true := by
        have := lit_self_append (c :: t) y
        simp only [List.cons_append] at this
        simp [startsWith, this]
      simp only [List.cons_append]
      simp [hasSub, hsw]
  | cons c x' ih => exact hasSub_cons_of ih

/-! ## First-occurrence lemmas for the section extraction -/

theorem hasSub_false_findSub_none {n s : Str} (h : hasSub n s = false) :
    findSub n s = none := by
  induction s with
  | nil =>
    have hne : n ≠ [] := by
      intro hnil
      subst hnil
      simp [hasSub, lit] at h
    cases n with
    | nil => exact absurd rfl hne
    | cons c t => simp [findSub, startsWith, lit]
  | cons c t ih =>
    simp only [hasSub, Bool.or_eq_false_iff] at h
    simp [findSub, h.1, ih h.2]

theorem startsWith_append_left {n m s : Str}
    (h : startsWith (n ++ m) s = true) : startsWith n s = true := by
  rcases startsWith_correct.1 h with ⟨r, hr⟩
  exact startsWith_correct.2 ⟨m ++ r, by rw [← hr, List.append_assoc]⟩

theorem hasSub_extend {n m s : Str} (h : hasSub n s = false) :
    hasSub (n ++ m) s = false := by
  induction s with
  | nil =>
    have hne : n ≠ [] := by
      intro hnil
      subst hnil
      simp [hasSub, lit] at h
    cases n with
    | nil => exact absurd rfl hne
    | cons c t => simp [hasSub, lit]
  | cons c t ih =>
    simp only [hasSub, Bool.or_eq_false_iff] at h ⊢
    refine ⟨?_, ih h.2⟩
    cases hsw : startsWith (n ++ m) (c :: t)
    · rfl
    · rw [startsWith_append_left hsw] at h
      exact absurd h.1 (by simp)

/-- First occurrence after a clean prefix: if the needle does not
occur in the prefix extended by all but the last character of the
needle itself, its first occurrence in prefix ++ needle ++ rest is
exactly at the end of the prefix. -/
theorem findSub_clean : ∀ {x : Str} {n y : Str}, n ≠ [] →
    hasSub n ((x ++ n).dropLast) = false →
    findSub n (x ++ (n ++ y)) = some x.length := by
  intro x
  induction x with
  | nil =>
    intro n y hne _
    cases n with
    | nil => exact absurd rfl hne
    | cons c t =>
      have hsw : startsWith (c :: t) (c :: (t ++ y)) = true := by
        have := lit_self_append (c :: t) y
        simp only [List.cons_append] at this
        simp [startsWith, this]
      simp only [List.nil_append, List.cons_append]
      simp [findSub, hsw]
  | cons c x' ih =>
    intro n y hne hcl
    have hne2 : x' ++ n ≠ [] := by
      intro hnil
      rcases List.append_eq_nil.1 hnil with ⟨_, h2⟩
      exact hne h2
    have hdl : ((c :: x') ++ n).dropLast = c :: (x' ++ n).dropLast := by
      simp only [List.cons_append]
      exact List.dropLast_cons_of_ne_nil hne2
    have hcl' : hasSub n ((x' ++ n).dropLast) = false := by
      cases hh : hasSub n ((x' ++ n).dropLast)
      · rfl
      · rw [hdl, hasSub_cons_of hh] at hcl
        exact absurd hcl (by simp)
    have hsw : startsWith n (c :: (x' ++ (n ++ y))) = false := by
      cases hh : startsWith n (c :: (x' ++ (n ++ y)))
      · rfl
      · exfalso
        have hpre : n <+: (c :: (x' ++ (n ++ y))) := startsWith_correct.1 hh
        have hD : ((c :: x') ++ n).dropLast <+: (c :: (x' ++ (n ++ y))) := by
          have h1 : ((c :: x') ++ n).dropLast <+: (c :: x') ++ n :=
            List.dropLast_prefix _
          have h2 : (c :: x') ++ n <+: c :: (x' ++ (n ++ y)) :=
            ⟨y, by simp [List.append_assoc]⟩
          exact h1.trans h2
        have hlen : n.length ≤ (((c :: x') ++ n).dropLast).length := by
          rw [List.length_dropLast]
          simp only [List.length_append, List.length_cons]
          have : n ≠ [] := hne
          have : 0 < n.length := List.length_pos.2 hne
          omega
        have hnD : n <+: ((c :: x') ++ n).dropLast :=
          List.prefix_of_prefix_length_le hpre hD hlen
        have htrue : hasSub n (((c :: x') ++ n).dropLast) = true :=
          hasSub_of_startsWith (startsWith_correct.2 hnD)
        rw [hcl] at htrue
        exact absurd htrue (by simp)
    rw [List.cons_append]
    rw [show findSub n (c :: (x' ++ (n ++ y))) =
      if startsWith n (c :: (x' ++ (n ++ y))) then some 0
      else (findSub n (x' ++ (n ++ y))).map (· + 1) from rfl]
    rw [hsw]
    rw [if_neg (by simp)]
    rw [ih hne hcl']
    simp

/-! ## Lemmas about the block-execution loop -/

theorem execute_with_timeout_pair (mt : Nat) (interp : Interp) (b : Str)
    (a : Nat) :
    execute_with_timeout mt interp b freshScope a =
      (blockResult mt interp b, 0) := by
  unfold blockResult execute_with_timeout
  cases interp b freshScope with
  | done ctx2 =>
    dsimp only
    cases lookupScope ctx2 executionName <;> rfl
  | timedOut => rfl
  | raised e => rfl

theorem execute_with_timeout_alarm (mt : Nat) (interp : Interp) (b : Str)
    (ctx : Scope) (a : Nat) :
    (execute_with_timeout mt interp b ctx a).2 = 0 := by
  unfold execute_with_timeout
  cases interp b ctx with
  | done ctx2 =>
    dsimp only
    cases lookupScope ctx2 executionName <;> rfl
  | timedOut => rfl
  | raised e => rfl

theorem blockResult_ok {mt : Nat} {interp : Interp} {b : Str}
    (hnr : ∀ e, interp b freshScope ≠ .raised e) :
    ∃ v, blockResult mt interp b = .ok v := by
  unfold blockResult execute_with_timeout
  cases hi : interp b freshScope with
  | done ctx2 =>
    dsimp only
    cases lookupScope ctx2 executionName <;> exact ⟨_, rfl⟩
  | timedOut => exact ⟨_, rfl⟩
  | raised e => exact absurd hi (hnr e)

theorem blockResult_timedOut {mt : Nat} {interp : Interp} {b : Str}
    (h : interp b freshScope = .timedOut) :
    blockResult mt interp b = .ok (.pystr (timeoutMsg mt)) := by
  unfold blockResult execute_with_timeout
  rw [h]

theorem blockResult_raised {mt : Nat} {interp : Interp} {b : Str} {e : Str}
    (h : interp b freshScope = .raised e) :
    blockResult mt interp b = .error e := by
  unfold blockResult execute_with_timeout
  rw [h]

theorem blockResult_done {mt : Nat} {interp : Interp} {b : Str} {ctx2 : Scope}
    (h : interp b freshScope = .done ctx2) :
    blockResult mt interp b =
      .ok (match lookupScope ctx2 executionName with
            | some v => v
            | none => .pynone) := by
  unfold blockResult execute_with_timeout
  rw [h]
  dsimp only
  cases lookupScope ctx2 executionName <;> rfl

theorem entryOf_ne_pynone (mt : Nat) (interp : Interp) (b : Str) :
    entryOf mt interp b ≠ PyVal.pynone := by
  unfold entryOf
  cases blockResult mt interp b with
  | error e => simp
  | ok v =>
    cases v <;> simp [blockEntry]

/-- With no raising block, the loop returns exactly the pointwise
entries, and leaves the alarm disarmed as soon as one block ran. -/
theorem runBlocks_noRaise {mt : Nat} {interp : Interp} :
    ∀ (bs : List Str) (a : Nat),
    (∀ b ∈ bs, ∀ e, interp b freshScope ≠ .raised e) →
    runBlocks mt interp bs a =
      (.ok (bs.map (entryOf mt interp)), if bs.isEmpty then a else 0) := by
  intro bs
  induction bs with
  | nil => intro a _; rfl
  | cons b bs ih =>
    intro a h
    rcases @blockResult_ok mt interp b (h b (by simp)) with ⟨v, hv⟩
    have hrec := ih 0 (fun x hx e => h x (by simp [hx]) e)
    rw [runBlocks, execute_with_timeout_pair, hv]
    dsimp only
    rw [hrec]
    have hent : entryOf mt interp b = blockEntry v b := by
      unfold entryOf
      rw [hv]
    cases hbs : bs.isEmpty <;> simp [hent]

/-- A raising block aborts the loop with its exception, whatever was
already collected. -/
theorem runBlocks_raise {mt : Nat} {interp : Interp} {e : Str} :
    ∀ (pre : List Str) (b : Str) (post : List Str) (a : Nat),
    (∀ x ∈ pre, ∀ m, interp x freshScope ≠ .raised m) →
    interp b freshScope = .raised e →
    (runBlocks mt interp (pre ++ b :: post) a).1 = .error e := by
  intro pre
  induction pre with
  | nil =>
    intro b post a _ hraise
    rw [List.nil_append, runBlocks, execute_with_timeout_pair,
      blockResult_raised hraise]
  | cons x pre ih =>
    intro b post a hpre hraise
    rcases @blockResult_ok mt interp x (hpre x (by simp)) with ⟨v, hv⟩
    rw [List.cons_append, runBlocks, execute_with_timeout_pair, hv]
    dsimp only
    have hrec := ih b post 0 (fun z hz m => hpre z (by simp [hz]) m) hraise
    cases hrb : runBlocks mt interp (pre ++ b :: post) 0 with
    | mk r a2 =>
      rw [hrb] at hrec
      dsimp only at hrec
      subst hrec
      rfl

/-! ## Lemmas about the statement interpreter -/

theorem runStmts_scope {toolSem : PyVal → ToolOutcome} :
    ∀ (stmts : List PyStmt) (ctx ctx2 : Scope),
    runStmts toolSem stmts ctx = .done ctx2 →
    ∀ x, lookupScope ctx2 x ≠ none →
      lookupScope ctx x ≠ none ∨ x ∈ assignedNames stmts := by
  intro stmts
  induction stmts with
  | nil =>
    intro ctx ctx2 h x hx
    cases h
    exact Or.inl hx
  | cons st rest ih =>
    intro ctx ctx2 h x hx
    cases st with
    | assign x0 e0 =>
      rw [runStmts] at h
      cases hev : evalExpr toolSem ctx e0 with
      | val v =>
        rw [hev] at h
        rcases ih _ _ h x hx with hin | hmem
        · by_cases hxx : x0 = x
          · subst hxx
            exact Or.inr (by simp [assignedNames])
          · left
            rw [lookupScope, if_neg hxx] at hin
            exact hin
        · exact Or.inr (by simp [assignedNames, hmem])
      | exn m => rw [hev] at h; cases h
      | hung => rw [hev] at h; cases h

/-! ## Section-extractor lemmas -/

theorem findSub_zero {n s : Str} (hne : n ≠ []) (h : startsWith n s = true) :
    findSub n s = some 0 := by
  cases s with
  | nil =>
    cases n with
    | nil => exact absurd rfl hne
    | cons c t => simp [startsWith, lit] at h
  | cons c t => simp [findSub, h]

theorem analysisOf_no_marker {s : Str} (h : hasSub mkAnalysis s = false) :
    analysisOf s = fbAnalysis := by
  unfold analysisOf
  rw [hasSub_false_findSub_none h]

theorem analysisOf_no_term {s : Str} (h : hasSub mkCmdExp s = false) :
    analysisOf s = fbAnalysis := by
  unfold analysisOf
  cases hf : findSub mkAnalysis s with
  | none => rfl
  | some i =>
    dsimp only
    have hd : hasSub mkCmdExp (s.drop (i + mkAnalysis.length)) = false := by
      cases hh : hasSub mkCmdExp (s.drop (i + mkAnalysis.length))
      · rfl
      · rw [hasSub_of_drop hh] at h
        exact absurd h (by simp)
    rw [hasSub_false_findSub_none hd]

theorem explanationOf_no_marker {s : Str} (h : hasSub mkCmdExpColon s = false) :
    explanationOf s = fbExplanation := by
  unfold explanationOf
  rw [hasSub_false_findSub_none h]

theorem explanationOf_no_term {s : Str} (h : hasSub mkGenCmd s = false) :
    explanationOf s = fbExplanation := by
  unfold explanationOf
  cases hf : findSub mkCmdExpColon s with
  | none => rfl
  | some i =>
    dsimp only
    have hd : hasSub mkGenCmd (s.drop (i + mkCmdExpColon.length)) = false := by
      cases hh : hasSub mkGenCmd (s.drop (i + mkCmdExpColon.length))
      · rfl
      · rw [hasSub_of_drop hh] at h
        exact absurd h (by simp)
    rw [hasSub_false_findSub_none hd]

theorem commandOf_no_marker {s : Str} (h : hasSub mkGenCmdColon s = false) :
    commandOf s = fbCommand := by
  unfold commandOf
  rw [hasSub_false_findSub_none h]

theorem mkCmdExpColon_eq : mkCmdExpColon = mkCmdExp ++ [':'] := by decide

theorem mkGenCmdColon_eq : mkGenCmdColon = mkGenCmd ++ [':'] := by decide

/-- The analysis extractor on text of the form marker ++ body ++
terminator ++ rest, provided the terminator search lands at the end of
the body. -/
theorem analysisOf_pos {a' rest : Str}
    (hcl : hasSub mkCmdExp ((a' ++ mkCmdExp).dropLast) = false) :
    analysisOf (mkAnalysis ++ (a' ++ (mkCmdExp ++ rest))) = strip a' := by
  unfold analysisOf
  have h0 : findSub mkAnalysis (mkAnalysis ++ (a' ++ (mkCmdExp ++ rest))) = some 0 :=
    findSub_zero (by decide) (by simp [startsWith, lit_self_append])
  rw [h0]
  dsimp only
  rw [Nat.zero_add, List.drop_left]
  rw [findSub_clean (by decide) hcl]
  dsimp only
  rw [List.take_left]

theorem explanationOf_pos {x' e' rest : Str}
    (hcl1 : hasSub mkCmdExpColon ((x' ++ mkCmdExpColon).dropLast) = false)
    (hcl2 : hasSub mkGenCmd ((e' ++ mkGenCmd).dropLast) = false) :
    explanationOf (x' ++ (mkCmdExpColon ++ (e' ++ (mkGenCmd ++ rest)))) = strip e' := by
  unfold explanationOf
  rw [findSub_clean (by decide) hcl1]
  dsimp only
  have hdrop : (x' ++ (mkCmdExpColon ++ (e' ++ (mkGenCmd ++ rest)))).drop
      (x'.length + mkCmdExpColon.length) = e' ++ (mkGenCmd ++ rest) := by
    rw [show x' ++ (mkCmdExpColon ++ (e' ++ (mkGenCmd ++ rest))) =
      (x' ++ mkCmdExpColon) ++ (e' ++ (mkGenCmd ++ rest)) from by
        rw [List.append_assoc]]
    rw [show x'.length + mkCmdExpColon.length = (x' ++ mkCmdExpColon).length from
      (List.length_append _ _).symm]
    rw [List.drop_left]
  rw [hdrop, findSub_clean (by decide) hcl2]
  dsimp only
  rw [List.take_left]

theorem findFenced_skip {c : Char} {t : Str}
    (h : startsWith fenceOpen (c :: t) = false) :
    findFenced (c :: t) = findFenced t := by
  rw [findFenced, if_neg (by simp [h])]

theorem startsWith_fenceOpen_nl (z : Str) :
    startsWith fenceOpen ('\n' :: z) = false := by
  rw [show fenceOpen = '`' :: ("``python\n".data) from rfl]
  unfold startsWith
  rw [show lit ('`' :: ("``python\n".data)) ('\n' :: z) = none from by
    rw [lit, if_neg (by decide)]]
  rfl

theorem findFenced_at_open {X : Str} {j : Nat}
    (h : findSub fenceClose X = some j) :
    findFenced (fenceOpen ++ X) = some (X.take j) := by
  have hs : fenceOpen ++ X = '`' :: ("``python\n".data ++ X) := rfl
  rw [hs, findFenced, ← hs]
  rw [if_pos (by simp [startsWith, lit_self_append])]
  rw [List.drop_left, h]

theorem commandOf_pos {x2 c' : Str}
    (hcl1 : hasSub mkGenCmdColon ((x2 ++ mkGenCmdColon).dropLast) = false)
    (hcl2 : hasSub fenceClose ((c' ++ fenceClose).dropLast) = false) :
    commandOf (x2 ++ (mkGenCmdColon ++ ('\n' :: (fenceOpen ++ (c' ++ fenceClose))))) =
      strip c' := by
  unfold commandOf
  rw [findSub_clean (by decide) hcl1]
  dsimp only
  have hdrop : (x2 ++ (mkGenCmdColon ++ ('\n' :: (fenceOpen ++ (c' ++ fenceClose))))).drop
      (x2.length + mkGenCmdColon.length) = '\n' :: (fenceOpen ++ (c' ++ fenceClose)) := by
    rw [show x2 ++ (mkGenCmdColon ++ ('\n' :: (fenceOpen ++ (c' ++ fenceClose)))) =
      (x2 ++ mkGenCmdColon) ++ ('\n' :: (fenceOpen ++ (c' ++ fenceClose))) from by
        rw [List.append_assoc]]
    rw [show x2.length + mkGenCmdColon.length = (x2 ++ mkGenCmdColon).length from
      (List.length_append _ _).symm]
    rw [List.drop_left]
  rw [hdrop]
  rw [findFenced_skip (startsWith_fenceOpen_nl _)]
  have hcf : findSub fenceClose (c' ++ fenceClose) = some c'.length := by
    have := @findSub_clean c' fenceClose []
      (by decide) hcl2
    simpa using this
  rw [findFenced_at_open hcf]
  dsimp only
  rw [List.take_left]

/-! ## Claim C6 -/

/-- Claim C6, counterexample: the command normalizer is not
idempotent.  Stripping the whitespace of " ```python" exposes a fence
marker that only the second pass removes, so normalizing the
already-normalized text is not a no-op. -/
theorem claim_C6_counterexample :
    normalize_code (normalize_code (" ```python".data)) ≠
      normalize_code (" ```python".data) := by decide

/-- Claim C6 (amended): the command normalizer is idempotent on every
input whose normalized form does not itself begin with the fence-open
marker and does not end in a backtick; on such inputs normalizing
already-normalized text is a no-op.  (Without the proviso the claim is
false: stripping can expose a new leading fence marker or a new
trailing backtick, which a second pass then removes.) -/
theorem claim_C6 (x : Str)
    (hfence : startsWith fenceTag (normalize_code x) = false)
    (hbt : (normalize_code x).getLast? ≠ some '`') :
    normalize_code (normalize_code x) = normalize_code x := by
  apply normalize_code_no_op hfence hbt
  unfold normalize_code
  exact strip_idem _

/-- Claim C6 witness: the amended idempotence at a concrete fenced
command. -/
theorem claim_C6_witness :
    normalize_code (normalize_code ("```python\nprint(1)\n```".data)) =
      normalize_code ("```python\nprint(1)\n```".data) :=
  claim_C6 ("```python\nprint(1)\n```".data) (by decide) (by decide)

/-! ## Claim C7 -/

/-- Claim C7, counterexample: on a structured record the parser does
not return the command field verbatim-trimmed: line 175 additionally
applies normalize_code, which strips the code fence from the command
field of this record. -/
theorem claim_C7_counterexample :
    extract_explanation_and_command (.structured
      ⟨"A".data, "E".data, ("```python\nx = 1\n```").data⟩) ≠
      (strip ("A".data), strip ("E".data),
        strip (("```python\nx = 1\n```").data)) := by decide

/-- Claim C7 (amended): for a structured record the parser returns the
analysis and explanation fields verbatim apart from trimming, with no
marker scanning; the command field is additionally fence-normalized,
which is the identity whenever the trimmed command does not begin with
the fence marker or end in a backtick. -/
theorem claim_C7 (tc : ToolCommand)
    (hfence : startsWith fenceTag (strip tc.command) = false)
    (hbt : (strip tc.command).getLast? ≠ some '`') :
    extract_explanation_and_command (.structured tc) =
      (strip tc.analysis, strip tc.explanation, strip tc.command) := by
  unfold extract_explanation_and_command
  dsimp only
  rw [normalize_code_no_op hfence hbt (strip_idem _)]

/-- Claim C7 witness: the amended statement at a concrete record. -/
theorem claim_C7_witness :
    extract_explanation_and_command (.structured
      ⟨" A ".data, " E ".data, " x = 1 ".data⟩) =
      (strip (" A ".data), strip (" E ".data), strip (" x = 1 ".data)) :=
  claim_C7 ⟨" A ".data, " E ".data, " x = 1 ".data⟩ (by decide) (by decide)

/-! ## Claim C8 -/

/-- Claim C8, counterexample: in a free-text response missing only the
"Command Explanation:" marker, the analysis is NOT extracted normally:
because "Command Explanation" is also the terminator of the analysis
regex, the analysis falls back as well, although its own marker
"Analysis:" is present and followed by text. -/
theorem claim_C8_counterexample :
    extract_explanation_and_command (.freeText
      ("Analysis: stuff\nGenerated Command:\n```python\nx = 1\n```").data) =
      (fbAnalysis, fbExplanation, "x = 1".data) := by decide

/-- Claim C8 (amended): a free-text response missing a section marker
yields the documented fallback string for that field without raising,
but the neighbouring field whose regex uses the missing marker as its
terminator also falls back: with "Analysis:" absent, analysis is the
fallback while explanation and command are extracted normally; with
"Command Explanation" absent, both analysis and explanation fall back
while the command is extracted normally; with "Generated Command"
absent, both explanation and command fall back while the analysis is
extracted normally.  The hypotheses state that the free sections do
not accidentally contain the markers. -/
theorem claim_C8 (x a e c : Str)
    (h1 : hasSub mkAnalysis (s1Text x e c) = false)
    (h2 : hasSub mkCmdExpColon ((x ++ mkCmdExpColon).dropLast) = false)
    (h3 : hasSub mkGenCmd ((e ++ mkGenCmd).dropLast) = false)
    (h4 : hasSub mkGenCmdColon
      (((x ++ (mkCmdExpColon ++ e)) ++ mkGenCmdColon).dropLast) = false)
    (h5 : hasSub fenceClose ((c ++ fenceClose).dropLast) = false)
    (h6 : hasSub mkCmdExp (s2Text a c) = false)
    (h7 : hasSub mkGenCmdColon
      (((mkAnalysis ++ a) ++ mkGenCmdColon).dropLast) = false)
    (h8 : hasSub mkGenCmd (s3Text a e) = false)
    (h9 : hasSub mkCmdExp ((a ++ mkCmdExp).dropLast) = false) :
    extract_explanation_and_command (.freeText (s1Text x e c)) =
      (fbAnalysis, strip e, normalize_code (strip c)) ∧
    extract_explanation_and_command (.freeText (s2Text a c)) =
      (fbAnalysis, fbExplanation, normalize_code (strip c)) ∧
    extract_explanation_and_command (.freeText (s3Text a e)) =
      (strip a, fbExplanation, fbCommand) := by
  refine ⟨?_, ?_, ?_⟩
  · unfold extract_explanation_and_command
    dsimp only
    have hA : analysisOf (s1Text x e c) = fbAnalysis := analysisOf_no_marker h1
    have hE : explanationOf (s1Text x e c) = strip e := by
      have hsh : s1Text x e c =
          x ++ (mkCmdExpColon ++ (e ++ (mkGenCmd ++
            (':' :: ('\n' :: (fenceOpen ++ (c ++ fenceClose))))))) := by
        simp [s1Text, gcBlock, mkGenCmdColon_eq, List.append_assoc]
      rw [hsh]
      exact explanationOf_pos h2 h3
    have hC : commandOf (s1Text x e c) = strip c := by
      have hsh : s1Text x e c =
          (x ++ (mkCmdExpColon ++ e)) ++ (mkGenCmdColon ++
            ('\n' :: (fenceOpen ++ (c ++ fenceClose)))) := by
        simp [s1Text, gcBlock, List.append_assoc]
      rw [hsh]
      exact commandOf_pos h4 h5
    rw [hA, hE, hC]
  · unfold extract_explanation_and_command
    dsimp only
    have hA : analysisOf (s2Text a c) = fbAnalysis := analysisOf_no_term h6
    have hE : explanationOf (s2Text a c) = fbExplanation := by
      apply explanationOf_no_marker
      rw [mkCmdExpColon_eq]
      exact hasSub_extend h6
    have hC : commandOf (s2Text a c) = strip c := by
      have hsh : s2Text a c =
          (mkAnalysis ++ a) ++ (mkGenCmdColon ++
            ('\n' :: (fenceOpen ++ (c ++ fenceClose)))) := by
        simp [s2Text, gcBlock, List.append_assoc]
      rw [hsh]
      exact commandOf_pos h7 h5
    rw [hA, hE, hC]
  · unfold extract_explanation_and_command
    dsimp only
    have hA : analysisOf (s3Text a e) = strip a := by
      have hsh : s3Text a e = mkAnalysis ++ (a ++ (mkCmdExp ++ (':' :: e))) := by
        simp [s3Text, mkCmdExpColon_eq, List.append_assoc]
      rw [hsh]
      exact analysisOf_pos h9
    have hE : explanationOf (s3Text a e) = fbExplanation := explanationOf_no_term h8
    have hC : commandOf (s3Text a e) = fbCommand := by
      apply commandOf_no_marker
      rw [mkGenCmdColon_eq]
      exact hasSub_extend h8
    rw [hA, hE, hC]
    have : normalize_code fbCommand = fbCommand := by decide
    rw [this]

/-- Claim C8 witness: the amended statement at concrete section
texts. -/
theorem claim_C8_witness :
    extract_explanation_and_command (.freeText
      (s1Text ("Intro ".data) (" E1 ".data) ("x = 1".data))) =
      (fbAnalysis, strip (" E1 ".data), normalize_code (strip ("x = 1".data))) :=
  (claim_C8 ("Intro ".data) ("A1".data) (" E1 ".data) ("x = 1".data)
    (by decide) (by decide) (by decide) (by decide) (by decide)
    (by decide) (by decide) (by decide) (by decide)).1

/-! ## Coordinator helper -/

theorem execute_tool_command_noRaise (mt a : Nat) (interp : Interp) (cmd : Str)
    (hnr : ∀ x ∈ split_commands cmd, ∀ e, interp x freshScope ≠ .raised e) :
    execute_tool_command mt (.ok ()) interp cmd a =
      (.inl ((split_commands cmd).map (entryOf mt interp)),
        if (split_commands cmd).isEmpty then a else 0) := by
  unfold execute_tool_command
  rw [runBlocks_noRaise _ a hnr]

/-! ## Claim C1 -/

/-- Claim C1, counterexample: the claim reads the invocation pattern
as execution = identifier.execute(...) for an arbitrary identifier.
The text consisting of the single line execution = foo.execute(x) has
exactly one such line, so the claim predicts one block, but the code
matches only the literal receiver name tool and produces zero
blocks. -/
theorem claim_C1_counterexample :
    (split_commands ("execution = foo.execute(x)".data)).length ≠ 1 := by decide

/-- Claim C1 (amended): for every line-structured normalized command
text whose invocation lines use the pattern execution = tool.execute(...)
(tool being the only pre-bound handle name; other identifiers do not
match) with the argument list confined to the line, the splitter
returns exactly as many blocks as there are invocation lines, each
block being preparation lines followed by exactly one invocation as
its final statement; with zero invocation lines it returns zero blocks
and the coordinator returns the empty result list rather than an
error. -/
theorem claim_C1 (ls : List CmdLine) (mt a : Nat) (interp : Interp)
    (hls : ∀ l ∈ ls, lineOk l = true) :
    (split_commands (renderCmd ls)).length = countInv ls ∧
    (∀ b ∈ split_commands (renderCmd ls), ∃ preps ws1 ws2 args,
      b = renderCmd (preps ++ [CmdLine.inv ws1 ws2 args]) ∧
      ∀ l ∈ preps, isPrepLine l = true) ∧
    (countInv ls = 0 →
      execute_tool_command mt (.ok ()) interp (renderCmd ls) a = (.inl [], a)) := by
  have hsg := split_commands_groups hls
  refine ⟨?_, ?_, ?_⟩
  · rw [hsg, List.length_map, groupsAux_length]
  · intro b hb
    rw [hsg] at hb
    rcases List.mem_map.1 hb with ⟨g, hg, rfl⟩
    rcases groupsAux_shape hg (by simp) hls with ⟨preps, w1, w2, a3, rfl, hpok, _⟩
    exact ⟨preps, w1, w2, a3, rfl, fun l hl => (hpok l hl).1⟩
  · intro h0
    have hempty : split_commands (renderCmd ls) = [] := by
      rw [hsg]
      have hlen : (groupsAux [] ls).length = 0 := by
        rw [groupsAux_length]; exact h0
      rw [List.length_eq_zero.1 hlen]
      rfl
    unfold execute_tool_command
    rw [hempty]
    rfl

/-- Claim C1 witness: block count at a concrete two-line command. -/
theorem claim_C1_witness :
    (split_commands (renderCmd wLines)).length = countInv wLines :=
  (claim_C1 wLines 3 5 wInterpDone (by decide)).1

/-! ## Claim C2 -/

/-- Claim C2: every block produced by the splitter consists of its
invocation line together with all lines since the previous invocation
line (or since the start of the text), modulo trimming: the split is
exactly the rendered grouping of preparation lines with the following
invocation line.  In particular a command of preparation lines
followed by one invocation line yields exactly one block containing
all of them. -/
theorem claim_C2 (ls : List CmdLine) (hls : ∀ l ∈ ls, lineOk l = true) :
    split_commands (renderCmd ls) = (groupsAux [] ls).map renderCmd ∧
    (∀ preps ws1 ws2 args,
      (∀ l ∈ preps, isPrepLine l = true ∧ lineOk l = true) →
      lineOk (CmdLine.inv ws1 ws2 args) = true →
      split_commands (renderCmd (preps ++ [CmdLine.inv ws1 ws2 args])) =
        [renderCmd (preps ++ [CmdLine.inv ws1 ws2 args])]) := by
  constructor
  · exact split_commands_groups hls
  · intro preps w1 w2 a3 hp hi
    have hok : ∀ l ∈ preps ++ [CmdLine.inv w1 w2 a3], lineOk l = true := by
      intro l hl
      rcases List.mem_append.1 hl with h | h
      · exact (hp l h).2
      · simp only [List.mem_singleton] at h
        subst h
        exact hi
    rw [split_commands_groups hok,
      groupsAux_prep_inv preps [] w1 w2 a3 (fun l hl => (hp l hl).1)]
    simp

/-- Claim C2 witness: two preparation lines and one invocation line
yield a single block containing all three. -/
theorem claim_C2_witness :
    split_commands (renderCmd (wPreps ++ [CmdLine.inv (" ".data) ("".data) ("a, b".data)])) =
      [renderCmd (wPreps ++ [CmdLine.inv (" ".data) ("".data) ("a, b".data)])] :=
  (claim_C2 [] (by simp)).2 wPreps (" ".data) ("".data) ("a, b".data)
    (by decide) (by decide)

/-! ## Claim C10 -/

/-- Claim C10: text after the final invocation line is not included in
any block and is therefore never executed: appending trailing
preparation lines leaves the split unchanged, so the blocks cover only
the prefix of the command up to and including the last invocation
line. -/
theorem claim_C10 (ls tp : List CmdLine)
    (hls : ∀ l ∈ ls, lineOk l = true)
    (htp : ∀ l ∈ tp, isPrepLine l = true ∧ lineOk l = true) :
    split_commands (renderCmd (ls ++ tp)) = split_commands (renderCmd ls) := by
  have hall : ∀ l ∈ ls ++ tp, lineOk l = true := by
    intro l hl
    rcases List.mem_append.1 hl with h | h
    · exact hls l h
    · exact (htp l h).2
  rw [split_commands_groups hall, split_commands_groups hls,
    groupsAux_append_trailing ls (fun l hl => (htp l hl).1)]

/-- Claim C10 witness: a trailing print-like line after the last
invocation is dropped. -/
theorem claim_C10_witness :
    split_commands (renderCmd (wLines ++ [CmdLine.prep ("post = 1".data)])) =
      split_commands (renderCmd wLines) :=
  claim_C10 wLines [CmdLine.prep ("post = 1".data)] (by decide) (by decide)

/-! ## Claim C3 -/

/-- Claim C3: if tool resolution, instantiation or output-directory
configuration raises, or if running any individual block raises a
non-timeout failure, the coordinator returns a single aggregate error
string (not a list), discarding all block results already collected
for that command; otherwise it returns a list whose length equals the
number of blocks produced by the splitter. -/
theorem claim_C3 (mt a : Nat) (interp : Interp) (cmd e : Str) :
    (execute_tool_command mt (.error e) interp cmd a).1 = .inr (errAgg e) ∧
    (∀ pre b post, split_commands cmd = pre ++ b :: post →
      (∀ x ∈ pre, ∀ m, interp x freshScope ≠ .raised m) →
      interp b freshScope = .raised e →
      (execute_tool_command mt (.ok ()) interp cmd a).1 = .inr (errAgg e)) ∧
    ((∀ x ∈ split_commands cmd, ∀ m, interp x freshScope ≠ .raised m) →
      ∃ l, (execute_tool_command mt (.ok ()) interp cmd a).1 = .inl l ∧
        l.length = (split_commands cmd).length) := by
  refine ⟨rfl, ?_, ?_⟩
  · intro pre b post hsplit hpre hraise
    have h1 : (runBlocks mt interp (split_commands cmd) a).1 = .error e := by
      rw [hsplit]
      exact runBlocks_raise pre b post a hpre hraise
    unfold execute_tool_command
    dsimp only
    cases hrb : runBlocks mt interp (split_commands cmd) a with
    | mk r a2 =>
      rw [hrb] at h1
      dsimp only at h1
      subst h1
      rfl
  · intro hnr
    rw [show (execute_tool_command mt (.ok ()) interp cmd a).1 =
      .inl ((split_commands cmd).map (entryOf mt interp)) from by
        rw [execute_tool_command_noRaise mt a interp cmd hnr]]
    exact ⟨_, rfl, List.length_map _ _⟩

/-- Claim C3 witness: a command of two blocks whose second block
raises produces the aggregate error string, and with the failing-free
oracle the result is a list of the right length. -/
theorem claim_C3_witness :
    (execute_tool_command 5 (.ok ()) wInterpRaise wCmdTwo 0).1 =
      .inr (errAgg ("ZeroDivisionError".data)) :=
  (claim_C3 5 0 wInterpRaise wCmdTwo ("ZeroDivisionError".data)).2.1
    [wBlock1] wBlock2 [] (by decide)
    (by
      intro x hx m hcon
      have hx1 : x = wBlock1 := by simpa using hx
      subst hx1
      have hval : wInterpRaise wBlock1 freshScope =
          .done [(executionName, PyVal.obj 1)] := by decide
      rw [hval] at hcon
      cases hcon)
    (by decide)

/-! ## Claim C4 -/

/-- Claim C4: a block exceeding the deadline yields the timeout
sentinel containing the configured limit, the alarm is reset to zero
on every exit path of the timed runner (success, timeout, or raised
failure), and a timed-out block is recorded as that block entry while
execution continues: the result list still has one entry per block,
with the sentinel at the timed-out position. -/
theorem claim_C4 (mt a i : Nat) (interp : Interp) (b cmd : Str) (ctx : Scope) :
    (execute_with_timeout mt interp b ctx a).2 = 0 ∧
    (interp b ctx = .timedOut →
      (execute_with_timeout mt interp b ctx a).1 = .ok (.pystr (timeoutMsg mt))) ∧
    hasSub (Nat.toDigits 10 mt) (timeoutMsg mt) = true ∧
    ((∀ x ∈ split_commands cmd, ∀ m, interp x freshScope ≠ .raised m) →
      ∀ bi, (split_commands cmd).get? i = some bi →
        interp bi freshScope = .timedOut →
        ∃ l, (execute_tool_command mt (.ok ()) interp cmd a).1 = .inl l ∧
          l.length = (split_commands cmd).length ∧
          l.get? i = some (.pystr (timeoutMsg mt))) := by
  refine ⟨execute_with_timeout_alarm mt interp b ctx a, ?_, ?_, ?_⟩
  · intro h
    unfold execute_with_timeout
    rw [h]
  · rw [show timeoutMsg mt = "Execution timed out after ".data ++
      (Nat.toDigits 10 mt ++ " seconds".data) from by
        rw [timeoutMsg, List.append_assoc]]
    exact hasSub_append_mid _ _ _
  · intro hnr bi hget htmo
    refine ⟨(split_commands cmd).map (entryOf mt interp), ?_, List.length_map _ _, ?_⟩
    · rw [execute_tool_command_noRaise mt a interp cmd hnr]
    · rw [List.get?_map, hget]
      have hent : entryOf mt interp bi = .pystr (timeoutMsg mt) := by
        unfold entryOf
        rw [blockResult_timedOut htmo]
        rfl
      rw [Option.map_some', hent]

/-- Claim C4 witness: with the first of two blocks timing out, the
alarm ends disarmed, the sentinel carries the limit, and the result
list keeps one entry per block with the sentinel first. -/
theorem claim_C4_witness :
    ∃ l, (execute_tool_command 7 (.ok ()) wInterpTimeout wCmdTwo 0).1 = .inl l ∧
      l.length = (split_commands wCmdTwo).length ∧
      l.get? 0 = some (.pystr (timeoutMsg 7)) :=
  (claim_C4 7 0 0 wInterpTimeout wBlock1 wCmdTwo freshScope).2.2.2
    (by
      intro x hx m hcon
      have hsp : split_commands wCmdTwo = [wBlock1, wBlock2] := by decide
      rw [hsp] at hx
      simp only [List.mem_cons, List.not_mem_nil, or_false] at hx
      rcases hx with rfl | rfl
      · have hval : wInterpTimeout wBlock1 freshScope = .timedOut := by decide
        rw [hval] at hcon
        cases hcon
      · have hval : wInterpTimeout wBlock2 freshScope =
            .done [(executionName, PyVal.obj 2)] := by decide
        rw [hval] at hcon
        cases hcon)
    wBlock1 (by decide) (by decide)

/-! ## Claim C5 -/

/-- Claim C5: each block is executed in a fresh binding scope in which
only the name tool is pre-bound; the result list is a pointwise
function of the individual blocks run from that fresh scope, so
nothing one block binds is visible to a later block; and in the exec
model of the command grammar, a name visible after a block ran from
the fresh scope is either tool or was assigned by that same block. -/
theorem claim_C5 (mt a : Nat) (interp : Interp) (cmd : Str)
    (toolSem : PyVal → ToolOutcome) :
    (lookupScope freshScope ("tool".data) = some PyVal.toolObj ∧
      ∀ x, x ≠ "tool".data → lookupScope freshScope x = none) ∧
    ((∀ x ∈ split_commands cmd, ∀ m, interp x freshScope ≠ .raised m) →
      (execute_tool_command mt (.ok ()) interp cmd a).1 =
        .inl ((split_commands cmd).map (entryOf mt interp))) ∧
    (∀ stmts ctx2, runStmts toolSem stmts freshScope = .done ctx2 →
      ∀ x, lookupScope ctx2 x ≠ none → x = "tool".data ∨ x ∈ assignedNames stmts) := by
  have hfresh : ∀ x, x ≠ "tool".data → lookupScope freshScope x = none := by
    intro x hx
    show (if "tool".data = x then some PyVal.toolObj else lookupScope [] x) = none
    rw [if_neg (fun hh => hx hh.symm)]
    rfl
  refine ⟨⟨rfl, hfresh⟩, ?_, ?_⟩
  · intro hnr
    rw [execute_tool_command_noRaise mt a interp cmd hnr]
  · intro stmts ctx2 h x hx
    rcases runStmts_scope stmts freshScope ctx2 h x hx with hin | hmem
    · left
      by_contra hne
      exact hin (hfresh x hne)
    · right
      exact hmem

/-- Claim C5 witness: with the always-completing oracle the result
list is the pointwise map over the blocks from the fresh scope. -/
theorem claim_C5_witness :
    (execute_tool_command 5 (.ok ()) wInterpDone wCmdTwo 0).1 =
      .inl ((split_commands wCmdTwo).map (entryOf 5 wInterpDone)) :=
  (claim_C5 5 0 wInterpDone wCmdTwo (fun _ => ToolOutcome.ret PyVal.pynone)).2.1
    (by
      intro x hx m hcon
      have hval : wInterpDone x freshScope =
          .done [(executionName, PyVal.obj 3)] := rfl
      rw [hval] at hcon
      cases hcon)

/-! ## Claim C9 -/

/-- Claim C9: after a block completes without timeout or failure, if
the name execution is unbound in its scope or bound to None, the
coordinator appends the descriptive placeholder naming the block; a
successful result list therefore never contains the None value, even
when the tool legitimately returns None. -/
theorem claim_C9 (mt a : Nat) (interp : Interp) (cmd : Str) :
    ((∀ x ∈ split_commands cmd, ∀ m, interp x freshScope ≠ .raised m) →
      ∀ l, (execute_tool_command mt (.ok ()) interp cmd a).1 = .inl l →
        ∀ v ∈ l, v ≠ PyVal.pynone) ∧
    (∀ b ctx2, interp b freshScope = .done ctx2 →
      (lookupScope ctx2 executionName = none ∨
        lookupScope ctx2 executionName = some PyVal.pynone) →
      entryOf mt interp b = .pystr (noExecMsg b)) ∧
    (∀ b, entryOf mt interp b ≠ PyVal.pynone) := by
  refine ⟨?_, ?_, entryOf_ne_pynone mt interp⟩
  · intro hnr l hl v hv
    rw [execute_tool_command_noRaise mt a interp cmd hnr] at hl
    dsimp only at hl
    have hleq : l = (split_commands cmd).map (entryOf mt interp) :=
      (Sum.inl.inj hl).symm
    subst hleq
    rcases List.mem_map.1 hv with ⟨b, _, rfl⟩
    exact entryOf_ne_pynone mt interp b
  · intro b ctx2 hdone hcase
    unfold entryOf
    rw [blockResult_done hdone]
    rcases hcase with h | h <;> rw [h] <;> rfl

/-- Claim C9 witness: a block whose scope binds execution to None
contributes the placeholder string naming the block. -/
theorem claim_C9_witness :
    entryOf 5 wInterpNone wBlock1 = .pystr (noExecMsg wBlock1) :=
  (claim_C9 5 0 wInterpNone wCmdTwo).2.1 wBlock1 [(executionName, PyVal.pynone)]
    rfl (Or.inr (by decide))

end Executor
